import Mathlib

/-!
Verification of the skeleton consensus and compartment-annotation engine of
`syconn/reps/super_segmentation_helper.py`.

The Python functions are shallowly embedded as executable Lean definitions:

* numpy arrays become `List`s, node ids become `ℕ`, coordinates become
  triples of rationals (`V3`);
* `networkx` graphs become a `SkelGraph` record (node list, position map,
  edge list); neighbour iteration order is the edge-insertion order, as in
  `networkx` 2.x;
* Euclidean norms are represented by their exact squares (`sq3`): every
  comparison `‖d‖ < t` performed by the source is embedded as
  `sq3 … < t^2`, which is equivalent for the non-negative thresholds the
  source uses, and keeps every definition computable over `ℚ`;
* results of external library calls that the source merely consumes
  (`scipy.spatial.cKDTree.query` distance tables, `np.linalg.norm` inside
  `knossos_utils` coordinate handling, the edge weights produced by the
  out-of-scope `weighted_graph` accessor) are passed in as explicit
  parameters, so the theorems quantify over them.

Definitions come first, then all lemmas and the per-claim theorems.
-/

/-- A 3d integer vector (voxel coordinates and integer scale factors are
exact in `ℤ`). -/
abbrev V3 := ℤ × ℤ × ℤ

/-- Componentwise difference of two vectors. -/
def sub3 (a b : V3) : V3 := (a.1 - b.1, a.2.1 - b.2.1, a.2.2 - b.2.2)

/-- Componentwise product (numpy broadcasting `v * scal`). -/
def mul3 (a b : V3) : V3 := (a.1 * b.1, a.2.1 * b.2.1, a.2.2 * b.2.2)

/-- Squared Euclidean norm of a vector. -/
def sqnorm3 (a : V3) : ℤ := a.1 * a.1 + a.2.1 * a.2.1 + a.2.2 * a.2.2

/-- Squared scaled distance: the exact square of
`np.linalg.norm((a - b) * scal)`. -/
def sq3 (scal a b : V3) : ℤ := sqnorm3 (mul3 (sub3 a b) scal)

/-- Insertion of an element into a list sorted by `le`. -/
def insertLe {α : Type} (le : α → α → Bool) (x : α) : List α → List α
  | [] => [x]
  | y :: ys => if le x y then x :: y :: ys else y :: insertLe le x ys

/-- Insertion sort by `le` (embeds `np.sort` / sorting by edge weight;
structural recursion so that concrete instances reduce by `decide`). -/
def isortLe {α : Type} (le : α → α → Bool) (l : List α) : List α :=
  l.foldr (insertLe le) []

/-- Sorting a list of rationals ascending (`np.sort`). -/
def isortQ (l : List ℚ) : List ℚ := isortLe (fun a b => decide (a ≤ b)) l

/-- Sorting a list of naturals ascending (`np.sort` on an integer array). -/
def isortN (l : List ℕ) : List ℕ := isortLe (fun a b => decide (a ≤ b)) l

/-- Collapse adjacent duplicates; on a sorted list this realises
`np.unique`'s deduplication. -/
def dedupAdj {α : Type} [DecidableEq α] : List α → List α
  | [] => []
  | [x] => [x]
  | x :: y :: r => if x = y then dedupAdj (y :: r) else x :: dedupAdj (y :: r)

/-- `np.unique` of a list of naturals: sorted distinct values. -/
def uniqueN (l : List ℕ) : List ℕ := dedupAdj (isortN l)

/-- Distinct values of a list in order of first occurrence
(insertion order of a Python `collections.Counter`). -/
def firstOccs {α : Type} [DecidableEq α] (l : List α) : List α :=
  l.foldl (fun acc x => if x ∈ acc then acc else acc ++ [x]) []

/-- Minimum of a list of integers (0 for the empty list, matching no
source call site: the source never takes a minimum of an empty array). -/
def minZ : List ℤ → ℤ
  | [] => 0
  | x :: xs => xs.foldl (fun m y => if y < m then y else m) x

/-- Helper for `argminZ`: remaining list, best value, best index, current
index. -/
def argminAux : List ℤ → ℤ → ℕ → ℕ → ℕ
  | [], _, bi, _ => bi
  | y :: ys, bv, bi, ci =>
      if y < bv then argminAux ys y ci (ci + 1) else argminAux ys bv bi (ci + 1)

/-- `np.argmin`: index of the first minimum of a list (0 on empty). -/
def argminZ : List ℤ → ℕ
  | [] => 0
  | x :: xs => argminAux xs x 0 1

/-- Position of the first occurrence of `x` (the index `np.unique`-based
dictionaries assign to a value). -/
def idxOf (x : ℕ) : List ℕ → ℕ
  | [] => 0
  | y :: ys => if y = x then 0 else idxOf x ys + 1

/-! ### Undirected graphs over natural-number node ids -/

/-- A `networkx` graph as the source uses it: a list of node ids, a
position attribute per node, and an edge list.  Neighbour iteration order
is the edge-list order. -/
structure SkelGraph where
  nodes : List ℕ
  pos : ℕ → V3
  edges : List (ℕ × ℕ)

/-- Bool-valued adjacency in an edge list (edges are undirected). -/
def adjB (E : List (ℕ × ℕ)) (u v : ℕ) : Bool :=
  E.any (fun e => (e.1 == u && e.2 == v) || (e.1 == v && e.2 == u))

/-- Prop-valued adjacency. -/
def adjRel (E : List (ℕ × ℕ)) (u v : ℕ) : Prop := (u, v) ∈ E ∨ (v, u) ∈ E

/-- Connectivity: reflexive-transitive closure of adjacency (the relation
`networkx` connected components are classes of). -/
def Reach (E : List (ℕ × ℕ)) : ℕ → ℕ → Prop :=
  Relation.ReflTransGen (adjRel E)

/-- Append `b` to the set `s` when `a` is already present and `b` is
not. -/
def addOne (s : List ℕ) (a b : ℕ) : List ℕ :=
  if a ∈ s ∧ b ∉ s then s ++ [b] else s

/-- Add the endpoints of `e` reachable in one step from the set `s`. -/
def addNbrs (s : List ℕ) (e : ℕ × ℕ) : List ℕ :=
  addOne (addOne s e.1 e.2) e.2 e.1

/-- One expansion round of the reachable set. -/
def stepReach (E : List (ℕ × ℕ)) (s : List ℕ) : List ℕ :=
  E.foldl addNbrs s

/-- Iterated expansion. -/
def iterReach (E : List (ℕ × ℕ)) : ℕ → List ℕ → List ℕ
  | 0, s => s
  | n + 1, s => iterReach E n (stepReach E s)

/-- All endpoints occurring in an edge list. -/
def endPts (E : List (ℕ × ℕ)) : List ℕ := E.flatMap (fun e => [e.1, e.2])

/-- Computable connected component of `u`: expansion run to saturation
(`2·|E| + 1` rounds always suffice). -/
def reachList (E : List (ℕ × ℕ)) (u : ℕ) : List ℕ :=
  iterReach E (2 * E.length + 1) [u]

/-- Decidable connectivity test. -/
def reachB (E : List (ℕ × ℕ)) (u v : ℕ) : Bool := v ∈ reachList E u

/-- One step of the component scan: start a new component at `v` unless
`v` is already assigned. -/
def ccStep (E : List (ℕ × ℕ)) (acc : List (List ℕ) × List ℕ) (v : ℕ) :
    List (List ℕ) × List ℕ :=
  if v ∈ acc.2 then acc
  else (acc.1 ++ [reachList E v], acc.2 ++ reachList E v)

/-- Connected components of the node list `vs` under edge list `E`
(`nx.connected_components`, components listed in first-node order). -/
def connectedComponents (vs : List ℕ) (E : List (ℕ × ℕ)) : List (List ℕ) :=
  (vs.foldl (ccStep E) (([], []) : List (List ℕ) × List ℕ)).1

/-! ### Minimum spanning tree (`nx.minimum_spanning_tree`, Kruskal) -/

/-- First component of a component partition containing `u`. -/
def findComp (P : List (List ℕ)) (u : ℕ) : Option (List ℕ) :=
  P.find? (fun c => decide (u ∈ c))

/-- One Kruskal step on (partition, accepted edges): accept the edge iff
its endpoints lie in different components, merging the two components. -/
def spanStep (st : List (List ℕ) × List (ℕ × ℕ)) (e : ℕ × ℕ) :
    List (List ℕ) × List (ℕ × ℕ) :=
  match findComp st.1 e.1, findComp st.1 e.2 with
  | some c1, some c2 =>
      if c1 = c2 then st
      else ((c1 ++ c2) :: ((st.1.erase c1).erase c2), st.2 ++ [e])
  | _, _ => st

/-- Kruskal's algorithm over an (already sorted) edge list, starting from
the singleton partition `P0`. -/
def kruskalAux (E : List (ℕ × ℕ)) (P0 : List (List ℕ)) :
    List (List ℕ) × List (ℕ × ℕ) :=
  E.foldl spanStep (P0, [])

/-- Squared weight the source assigns before MST extraction:
`np.linalg.norm((pos[u] - pos[v]) * scal) ** 2`. -/
def edgeWSq (scal : V3) (pos : ℕ → V3) (e : ℕ × ℕ) : ℤ :=
  sq3 scal (pos e.1) (pos e.2)

/-- Edges sorted by (squared) weight.  Sorting by the squared norm orders
edges exactly as sorting by the norm, since squaring is strictly monotone
on non-negative reals. -/
def sortEdgesByW (scal : V3) (pos : ℕ → V3) (E : List (ℕ × ℕ)) :
    List (ℕ × ℕ) :=
  isortLe (fun a b => decide (edgeWSq scal pos a ≤ edgeWSq scal pos b)) E

/-- The canonicalisation step closing `create_sso_skeleton_fast` and
`prune_stub_branches`: recompute each edge weight as the scaled distance
of its endpoints and take `nx.minimum_spanning_tree` (Kruskal: scan edges
in weight order, keep an edge iff it joins two components). -/
def mstOf (scal : V3) (G : SkelGraph) : SkelGraph :=
  { nodes := G.nodes
    pos := G.pos
    edges := (kruskalAux (sortEdgesByW scal G.pos G.edges)
      (G.nodes.map (fun v => [v]))).2 }

/-! ### Stub pruning (`prune_stub_branches`) -/

/-- `convert_coord(coord_list, scal)`: note the source swaps the first two
coordinates and shifts by one voxel before scaling. -/
def convert_coord (c : V3) (scal : V3) : V3 :=
  mul3 (c.2.1 + 1, c.1 + 1, c.2.2 + 1) scal

/-- Neighbours of `v` in edge-list order (`networkx` adjacency order for a
graph built by inserting the edge list in order). -/
def nbrs (E : List (ℕ × ℕ)) (v : ℕ) : List ℕ :=
  E.foldr
    (fun e acc =>
      if e.1 = v then e.2 :: acc else if e.2 = v then e.1 :: acc else acc)
    []

/-- Degree of a node (no self-loops or parallel edges in skeletons). -/
def degree (E : List (ℕ × ℕ)) (v : ℕ) : ℕ :=
  E.countP (fun e => e.1 == v || e.2 == v)

/-- The walk the source performs from a tip node with
`nx.traversal.dfs_preorder_nodes`: follow the unique degree-2 chain,
collecting nodes, until the first node of degree `> 2` (the branch point;
returned separately) or a dead end (`none`: the `for` loop runs out
without a `break`, so nothing is pruned).  The `next ∈ coll` guard
mirrors the DFS visited set; on simple skeleton graphs it never fires. -/
def walkStub (E : List (ℕ × ℕ)) : ℕ → ℕ → ℕ → List ℕ →
    Option (List ℕ × ℕ)
  | 0, _, _, _ => none
  | fuel + 1, prev, curr, coll =>
      if degree E curr > 2 then some (coll, curr)
      else
        match (nbrs E curr).filter (fun w => decide (w ≠ prev)) with
        | [next] =>
            if next ∈ coll ++ [curr] then none
            else walkStub E fuel curr next (coll ++ [curr])
        | _ => none

/-- The stub the source deletes for tip node `v` (empty when no branch
point is reached or the straight tip-to-branch distance is not below the
threshold).  `b_len < len_thres` on norms is embedded as the equivalent
squared comparison (`len_thres` is non-negative). -/
def stubOf (scal : V3) (G : SkelGraph) (T : ℤ) (v : ℕ) : List ℕ :=
  match walkStub G.edges (G.nodes.length + 1) v v [] with
  | some (stub, br) =>
      if sqnorm3 (sub3 (convert_coord (G.pos v) scal)
          (convert_coord (G.pos br) scal)) < T * T then stub else []
  | none => []

/-- One pass of the pruning `while` loop: all tip nodes are examined on
the frozen graph, and every collected stub is removed. -/
def prunePass (scal : V3) (G : SkelGraph) (T : ℤ) : SkelGraph :=
  let tips := G.nodes.filter (fun v => degree G.edges v == 1)
  let rem := tips.flatMap (stubOf scal G T)
  { nodes := G.nodes.filter (fun v => decide (v ∉ rem))
    pos := G.pos
    edges := G.edges.filter (fun e => decide (e.1 ∉ rem ∧ e.2 ∉ rem)) }

/-- The pruning `while not pruning_complete` loop; terminates because each
unfinished pass removes at least one node. -/
def pruneLoop (scal : V3) (T : ℤ) : ℕ → SkelGraph → SkelGraph
  | 0, G => G
  | fuel + 1, G =>
      let G' := prunePass scal G T
      if G'.nodes.length = G.nodes.length then G'
      else pruneLoop scal T fuel G'

/-- All unordered cross pairs of nodes of distinct components. -/
def crossPairs (G : SkelGraph) : List (ℕ × ℕ) :=
  (G.nodes.flatMap (fun u => G.nodes.map (fun v => (u, v)))).filter
    (fun p => decide (reachB G.edges p.1 p.2 = false))

/-- Modelled from the spec: `syconn.proc.graphs.stitch_skel_nx` is not
under `src/`.  Per the spec, until a single connected component remains it
repeatedly adds the edge between the two closest nodes lying in distinct
components, which always terminates in a single component. -/
def stitch_skel_nx (scal : V3) : ℕ → SkelGraph → SkelGraph
  | 0, G => G
  | fuel + 1, G =>
      if (connectedComponents G.nodes G.edges).length = 1 then G
      else
        match crossPairs G with
        | [] => G
        | p :: ps =>
            let cand := p :: ps
            let j := argminZ (cand.map (edgeWSq scal G.pos))
            let e := cand.getD j p
            stitch_skel_nx scal fuel
              { nodes := G.nodes, pos := G.pos, edges := G.edges ++ [e] }

/-- `prune_stub_branches(nx_g, scal, len_thres)`: the pruning loop, the
fallback stitching when the result is disconnected, and the final
reweighting + minimum spanning tree. -/
def prune_stub_branches (scal : V3) (G : SkelGraph) (T : ℤ) : SkelGraph :=
  let L := pruneLoop scal T (G.nodes.length + 1) G
  let L' :=
    if (connectedComponents L.nodes L.edges).length = 1 then L
    else stitch_skel_nx scal L.nodes.length L
  mstOf scal L'

/-! ### Bridging step of `from_sso_to_netkx_fast` (stitching) -/

/-- For one query point `b`, the squared distance to and the index of its
nearest neighbour among `pts` (`scipy.spatial.cKDTree.query`; the first
minimum is taken on ties). -/
def nnOf (pts : List V3) (b : V3) : ℤ × ℕ :=
  let ds := pts.map (fun a => sqnorm3 (sub3 a b))
  (minZ ds, argminZ ds)

/-- `ssv_skel['nodes'][sv_id_arr == e.id] * sso.scaling`: the scaled node
positions of one fragment. -/
def scaledOf (scal : V3) (pos : ℕ → V3) (ixs : List ℕ) : List V3 :=
  ixs.map (fun i => mul3 (pos i) scal)

/-- `dists` from `tree.query(nodes2)`: squared distance from each node of
fragment 2 to its nearest neighbour in fragment 1. -/
def distsOf (scal : V3) (pos : ℕ → V3) (ix1s ix2s : List ℕ) : List ℤ :=
  (scaledOf scal pos ix2s).map (fun b => (nnOf (scaledOf scal pos ix1s) b).1)

/-- `node_ixs1` from `tree.query(nodes2)`: the index (into fragment 1) of
each nearest neighbour. -/
def nnIdxOf (scal : V3) (pos : ℕ → V3) (ix1s ix2s : List ℕ) : List ℕ :=
  (scaledOf scal pos ix2s).map (fun b => (nnOf (scaledOf scal pos ix1s) b).2)

/-- The global indices `(ix1, ix2)` of the chosen closest pair
(`j = np.argmin(dists)`). -/
def bridgePair (scal : V3) (pos : ℕ → V3) (ix1s ix2s : List ℕ) : ℕ × ℕ :=
  let j := argminZ (distsOf scal pos ix1s ix2s)
  (ix1s.getD ((nnIdxOf scal pos ix1s ix2s).getD j 0) 0, ix2s.getD j 0)

/-- `node_dist_check`: the recomputed squared length of the chosen
bridge. -/
def bridgeCheck (scal : V3) (pos : ℕ → V3) (ix1s ix2s : List ℕ) : ℤ :=
  sqnorm3 (sub3 (mul3 (pos (bridgePair scal pos ix1s ix2s).1) scal)
    (mul3 (pos (bridgePair scal pos ix1s ix2s).2) scal))

/-- The loop body of the stitching stage for one supervoxel-graph edge:
given the global node index lists `ix1s`, `ix2s` of the two fragments, the
node position table and the scale, return the bridging edge the source
appends, or `none` when the source `continue`s (empty side, or the
`min(dists) < node_dist_check or node_dist_check > max_edge_length` skip).
Norm comparisons are embedded squared. -/
def stitchBridge (scal : V3) (pos : ℕ → V3) (ix1s ix2s : List ℕ)
    (maxLen : ℤ) : Option (ℕ × ℕ) :=
  if ix1s = [] ∨ ix2s = [] then none
  else
    if minZ (distsOf scal pos ix1s ix2s) < bridgeCheck scal pos ix1s ix2s
        ∨ bridgeCheck scal pos ix1s ix2s > maxLen * maxLen then none
    else some (bridgePair scal pos ix1s ix2s)

/-- Squared lengths of all cross pairs between the two fragments. -/
def crossSqDists (scal : V3) (pos : ℕ → V3) (ix1s ix2s : List ℕ) :
    List ℤ :=
  ix2s.flatMap (fun b =>
    ix1s.map (fun a => sqnorm3 (sub3 (mul3 (pos a) scal) (mul3 (pos b) scal))))

/-- Written from the spec's words for claim C4: the bridge is skipped only
when its physical length both exceeds the minimum nearest-neighbour
distance observed in the query and exceeds the maximum edge length
bound. -/
def specBridgeSkip (scal : V3) (pos : ℕ → V3) (ix1s ix2s : List ℕ)
    (maxLen : ℤ) : Bool :=
  decide (bridgeCheck scal pos ix1s ix2s > minZ (distsOf scal pos ix1s ix2s))
    && decide (bridgeCheck scal pos ix1s ix2s > maxLen * maxLen)

/-! ### Array rebuild (`from_netkx_to_arr`, shared with
`from_netkx_to_sso`) -/

/-- `from_netkx_to_arr(skel_nx)`: node positions in node-iteration order,
zero diameters, and edges relabelled through the dictionary mapping each
endpoint value to its index in the sorted unique endpoint array. -/
def from_netkx_to_arr (G : SkelGraph) :
    List V3 × List ℚ × List (ℕ × ℕ) :=
  let nodesArr := G.nodes.map G.pos
  let diameters := nodesArr.map (fun _ => (0 : ℚ))
  let flat := G.edges.flatMap (fun e => [e.1, e.2])
  let sortedU := uniqueN flat
  let edges2 := G.edges.map (fun e => (idxOf e.1 sortedU, idxOf e.2 sortedU))
  (nodesArr, diameters, edges2)

/-- `from_netkx_to_sso` performs the identical relabelling but first
asserts that the graph has exactly one connected component. -/
def from_netkx_to_sso (G : SkelGraph) :
    Option (List V3 × List ℚ × List (ℕ × ℕ)) :=
  if (connectedComponents G.nodes G.edges).length = 1
  then some (from_netkx_to_arr G) else none

/-- Claim C8 as stated: every endpoint index in the rebuilt edge array is
the position of that endpoint's node in the rebuilt node array. -/
def EdgeIdxMatchesNodeOrder (G : SkelGraph) : Prop :=
  ∀ j, j < G.edges.length →
    ((from_netkx_to_arr G).2.2.getD j (0, 0)).1
        = idxOf (G.edges.getD j (0, 0)).1 G.nodes
      ∧ ((from_netkx_to_arr G).2.2.getD j (0, 0)).2
        = idxOf (G.edges.getD j (0, 0)).2 G.nodes

/-! ### Majority votes (`np.unique` + `np.argmax`) -/

/-- `cls[np.argmax(cnts)]` for `cls, cnts = np.unique(vals,
return_counts=True)`: the most frequent value, ties resolved towards the
smallest value (`np.unique` sorts, `np.argmax` takes the first maximum).
Returns 0 on an empty list; every call site passes a non-empty list. -/
def majOf {α : Type} [DecidableEq α] [LinearOrder α] (dflt : α)
    (l : List α) : α :=
  match dedupAdj (isortLe (fun a b => decide (a ≤ b)) l) with
  | [] => dflt
  | c :: cs => cs.foldl (fun best x => if l.count best < l.count x then x else best) c

/-- `majority_vote_compartments`' biased majority of one component:
when axon (class 1) wins with vote share below 0.66, dendrite (class 0)
is assigned instead (source comment: "positively bias dendrite
assignment"). -/
def biasedMajority (preds : List ℕ) : ℕ :=
  let m := majOf 0 preds
  if m = 1 ∧ ((preds.count 1 : ℚ) / (preds.length : ℚ) < 66 / 100)
  then 0 else m

/-- `majority_vote_compartments(sso, ax_pred_key)` : remove soma nodes
(label 2), split into connected components, assign each component its
biased majority; soma nodes keep their original label. -/
def majority_vote_compartments (nodes : List ℕ) (E : List (ℕ × ℕ))
    (ax : ℕ → ℕ) : ℕ → ℕ :=
  let sfNodes := nodes.filter (fun v => decide (ax v ≠ 2))
  let sfEdges := E.filter (fun e => decide (ax e.1 ≠ 2 ∧ ax e.2 ≠ 2))
  let ccs := connectedComponents sfNodes sfEdges
  ccs.foldl
    (fun f cc =>
      let m := biasedMajority (cc.map ax)
      cc.foldl (fun f2 v => Function.update f2 v m) f)
    ax

/-- Written from the spec's words for claim C5: the runner-up category of
a vote (most frequent among the non-majority classes). -/
def runnerUpOf (preds : List ℕ) : ℕ :=
  let m := majOf 0 preds
  majOf 0 (preds.filter (fun x => decide (x ≠ m)))

/-- Written from the spec's words for claim C5: assign the majority, but
when the majority is the default/background class (the class the source
biases against, 1) with vote share below 0.66, assign the runner-up. -/
def specCompartmentAssign (preds : List ℕ) : ℕ :=
  let m := majOf 0 preds
  if m = 1 ∧ ((preds.count 1 : ℚ) / (preds.length : ℚ) < 66 / 100)
  then runnerUpOf preds else m

/-- Written from the spec's words for claim C5: the per-node value the
claim predicts (majority over the node's soma-free component). -/
def specCompartmentValue (_nodes : List ℕ) (E : List (ℕ × ℕ))
    (ax : ℕ → ℕ) (v : ℕ) : ℕ :=
  let sfEdges := E.filter (fun e => decide (ax e.1 ≠ 2 ∧ ax e.2 ≠ 2))
  if ax v = 2 then 2 else specCompartmentAssign ((reachList sfEdges v).map ax)

/-! ### Sliding-window property vote (`majorityvote_skeleton_property`) -/

/-- Lookup in the skeleton property dictionary `sso.skeleton`. -/
def lookupProp : List (String × List ℚ) → String → Option (List ℚ)
  | [], _ => none
  | p :: ps, k => if p.1 = k then some p.2 else lookupProp ps k

/-- Dictionary assignment `sso.skeleton[k] = v`. -/
def setProp : List (String × List ℚ) → String → List ℚ →
    List (String × List ℚ)
  | [], k, v => [(k, v)]
  | p :: ps, k, v => if p.1 = k then (k, v) :: ps else p :: setProp ps k v

/-- Relax the directed step `u → v` of weight `wt` on a distance table. -/
def relaxDir (d : ℕ → Option ℚ) (u v : ℕ) (wt : ℚ) : ℕ → Option ℚ :=
  match d u with
  | none => d
  | some du =>
      match d v with
      | none => Function.update d v (some (du + wt))
      | some dv => if du + wt < dv then Function.update d v (some (du + wt)) else d

/-- Relax one undirected weighted edge in both directions. -/
def relaxEdge (d : ℕ → Option ℚ) (e : (ℕ × ℕ) × ℚ) : ℕ → Option ℚ :=
  relaxDir (relaxDir d e.1.1 e.1.2 e.2) e.1.2 e.1.1 e.2

/-- One relaxation round over the weighted edge list. -/
def relaxRound (W : List ((ℕ × ℕ) × ℚ)) (d : ℕ → Option ℚ) : ℕ → Option ℚ :=
  W.foldl relaxEdge d

/-- Shortest-path distances from `src` after `rounds` relaxation rounds.
For non-negative weights this equals the Dijkstra distances once
`rounds ≥` the node count. -/
def bfDist (W : List ((ℕ × ℕ) × ℚ)) (rounds : ℕ) (src : ℕ) : ℕ → Option ℚ :=
  Nat.rec (fun v => if v = src then some 0 else none)
    (fun _ d => relaxRound W d) rounds

/-- `nx.single_source_dijkstra_path(g, src, maxd).keys()`: the nodes whose
shortest-path distance from `src` is at most `maxd` (embedded through
relaxation, which agrees with Dijkstra on non-negative weights). -/
def dijkstraWithin (n : ℕ) (W : List ((ℕ × ℕ) × ℚ)) (src : ℕ) (maxd : ℚ) :
    List ℕ :=
  (List.range n).filter (fun v =>
    match bfDist W n src v with
    | some dv => decide (dv ≤ maxd)
    | none => false)

/-- `majorityvote_skeleton_property(sso, prop_key, max_dist)`: raise when
the key is absent; otherwise compute for every node the majority of the
property over its geodesic `max_dist`-neighbourhood (all from the original
array) and store the batch under the derived key.  The weighted graph
`sso.weighted_graph()` (node count `n`, weighted edges `W`) is built
outside this module and is passed in explicitly. -/
def majorityvote_skeleton_property (n : ℕ) (W : List ((ℕ × ℕ) × ℚ))
    (sk : List (String × List ℚ)) (prop_key : String) (max_dist : ℤ) :
    Except String (List (String × List ℚ)) :=
  match lookupProp sk prop_key with
  | none => Except.error ("property does not exist in skeleton")
  | some arr =>
      let avg := (List.range n).map (fun i =>
        let neighs := dijkstraWithin n W i (max_dist : ℚ)
        majOf 0 (neighs.map (fun v => arr.getD v 0)))
      Except.ok (setProp sk (prop_key ++ "_avg" ++ toString max_dist) avg)

/-! ### Radius estimation (`radius_correction_found_vertices`) -/

/-- `np.median`: sort, take the middle element (odd length) or the mean of
the two middle elements (even length). -/
def npMedian (l : List ℚ) : ℚ :=
  let s := isortQ l
  let n := s.length
  if n = 0 then 0
  else if n % 2 = 1 then s.getD (n / 2) 0
  else (s.getD (n / 2 - 1) 0 + s.getD (n / 2) 0) / 2

/-- `radius_correction_found_vertices`: per node `ii`,
`diameters[ii] = np.median(dists[ii]) * 2 / 10`, then the whole array is
multiplied by `plump_factor`.  `dists` is the k-nearest-vertex distance
table returned by the external `cKDTree.query`. -/
def radius_correction_found_vertices (dists : List (List ℚ))
    (diameters : List ℚ) (plump_factor : ℚ) : List ℚ :=
  let d1 := (List.range dists.length).foldl
    (fun arr ii => arr.set ii (npMedian (dists.getD ii []) * 2 / 10)) diameters
  d1.map (fun d => d * plump_factor)

/-- Written from the spec's words for claim C2: twice the median of the
node's k nearest distances, multiplied by the plumpness factor. -/
def specRadiusDiameter (dists : List (List ℚ)) (plump : ℚ) (i : ℕ) : ℚ :=
  2 * npMedian (dists.getD i []) * plump

/-! ### Window vote over a `SkeletonAnnotation` (`majority_vote`) -/

/-- A loaded annotation: nodes, edges, scaled coordinates (external
`getCoordinate_scaled` data) and the integer property values
`int(n.data[prop + "_pred"])`. -/
structure Anno where
  nodes : List ℕ
  edges : List (ℕ × ℕ)
  coordS : ℕ → V3
  data : ℕ → ℤ

/-- `nx.bfs_edges`: breadth-first tree edges in discovery order. -/
def bfsEdges (E : List (ℕ × ℕ)) : ℕ → List ℕ → List ℕ → List (ℕ × ℕ)
  | 0, _, _ => []
  | _ + 1, [], _ => []
  | fuel + 1, u :: qs, vis =>
      let new := (nbrs E u).filter (fun w => decide (w ∉ vis))
      (new.map (fun v => (u, v))) ++ bfsEdges E fuel (qs ++ new) (vis ++ new)

/-- The accumulation loop of `nodes_in_pathlength`: add the head node of
each BFS edge while the running sum of segment norms stays within
`maxd`; `break` once it exceeds it. -/
def collectWithin (norm3 : V3 → ℚ) (coordS : ℕ → V3) (maxd : ℚ) :
    List (ℕ × ℕ) → ℚ → List ℕ → List ℕ
  | [], _, acc => acc
  | e :: es, cpl, acc =>
      let cpl2 := cpl + norm3 (sub3 (coordS e.2) (coordS e.1))
      if cpl2 > maxd then acc
      else collectWithin norm3 coordS maxd es cpl2 (acc ++ [e.2])

/-- `nodes_in_pathlength` for one source node; the window always starts
with the source itself.  `np.linalg.norm` is the external parameter
`norm3`. -/
def nodes_in_pathlength (A : Anno) (norm3 : V3 → ℚ) (maxd : ℚ) (src : ℕ) :
    List ℕ :=
  collectWithin norm3 A.coordS maxd
    (bfsEdges A.edges (2 * A.edges.length + 1) [src] [src]) 0 [src]

/-- `Counter(l).most_common()[0][0]`: `none` on the empty list (the
subscript raises `IndexError` there); otherwise the most frequent value,
ties resolved towards the earliest first occurrence. -/
def counterMostCommon (l : List ℤ) : Option ℤ :=
  match firstOccs l with
  | [] => none
  | c :: cs =>
      some (cs.foldl (fun best x => if l.count best < l.count x then x else best) c)

/-- The votes entering one node's window in `majority_vote`: the window's
property values with the value 2 filtered out. -/
def voteListOf (A : Anno) (norm3 : V3 → ℚ) (maxd : ℚ) (src : ℕ) : List ℤ :=
  ((nodes_in_pathlength A norm3 maxd src).map A.data).filter
    (fun x => decide (x ≠ 2))

/-- `majority_vote(anno, prop, max_dist)`: node by node, skip (keeping
label 2) when the property is axoness and the source node carries 2;
otherwise assign `Counter(window votes).most_common()[0][0]`, raising
`IndexError` when the vote list is empty.  Windows and votes are read from
the deep copy of the annotation, so updates never feed later votes. -/
def mvStep (A : Anno) (norm3 : V3 → ℚ) (propIsAxoness : Bool) (maxd : ℚ)
    (acc : Except String (ℕ → ℤ)) (src : ℕ) : Except String (ℕ → ℤ) :=
  match acc with
  | Except.error msg => Except.error msg
  | Except.ok f =>
      if propIsAxoness ∧ A.data src = 2 then
        Except.ok (Function.update f src 2)
      else
        match counterMostCommon (voteListOf A norm3 maxd src) with
        | none => Except.error ("IndexError")
        | some m => Except.ok (Function.update f src m)

def majority_vote (A : Anno) (norm3 : V3 → ℚ) (propIsAxoness : Bool)
    (maxd : ℚ) : Except String (ℕ → ℤ) :=
  A.nodes.foldl (mvStep A norm3 propIsAxoness maxd) (Except.ok A.data)

/-- Concrete annotation for the C10 witness: two nodes, one edge, all
property values 2. -/
def wA10 : Anno :=
  ⟨[0, 1], [(0, 1)], fun _ => (0, 0, 0), fun _ => 2⟩

/-- Degenerate norm parameter for the C10 witness. -/
def wnorm10 : V3 → ℚ := fun _ => 0

/-! ### Graph predicates used by the theorems -/

/-- A well-formed skeleton graph: distinct nodes, distinct undirected
edges with both endpoints among the nodes, no self-loops. -/
def CleanGraph (G : SkelGraph) : Prop :=
  G.nodes.Nodup ∧ G.edges.Nodup ∧
  ∀ e ∈ G.edges, e.1 ∈ G.nodes ∧ e.2 ∈ G.nodes ∧ e.1 ≠ e.2 ∧
    (e.2, e.1) ∉ G.edges

/-- Decidable connectivity of a graph. -/
def ConnectedB (G : SkelGraph) : Prop :=
  ∀ u ∈ G.nodes, ∀ v ∈ G.nodes, reachB G.edges u v = true

/-- Decidable acyclicity: every edge is a bridge. -/
def ForestB (G : SkelGraph) : Prop :=
  ∀ e ∈ G.edges, reachB (G.edges.erase e) e.1 e.2 = false

/-- A leaf-to-branch stub path: a non-empty simple chain `p` from a
degree-1 tip through degree-2 nodes, attached to the branch node `br` of
degree `≥ 3`. -/
def IsStubPath (G : SkelGraph) (p : List ℕ) (br : ℕ) : Prop :=
  p ≠ [] ∧ (∀ v ∈ p, v ∈ G.nodes) ∧ br ∈ G.nodes ∧
  List.Chain' (fun a b => adjB G.edges a b = true) (p ++ [br]) ∧
  degree G.edges (p.headD 0) = 1 ∧ (∀ v ∈ p.tail, degree G.edges v = 2) ∧
  2 < degree G.edges br ∧ p.Nodup ∧ br ∉ p

/-- Iterated pruning passes (the intermediate states of the `while`
loop). -/
def passIter (scal : V3) (T : ℤ) : ℕ → SkelGraph → SkelGraph
  | 0, G => G
  | k + 1, G => passIter scal T k (prunePass scal G T)

/-- The cumulative physical path length of the node sequence `q` exceeds
`T`: the claim-side notion for C3 (true Euclidean segment lengths, hence
stated over `ℝ`). -/
def CumLenGT (scal : V3) (pos : ℕ → V3) (q : List ℕ) (T : ℤ) : Prop :=
  (T : ℝ) <
    ((q.zip q.tail).map
      (fun e => Real.sqrt ((sq3 scal (pos e.1) (pos e.2) : ℤ) : ℝ))).sum

/-- The squared straight tip-to-branch distance `prune_stub_branches`
actually compares against the threshold. -/
def stubGateSq (scal : V3) (G : SkelGraph) (p : List ℕ) (br : ℕ) : ℤ :=
  sqnorm3 (sub3 (convert_coord (G.pos (p.headD 0)) scal)
    (convert_coord (G.pos br) scal))

/-! ### Concrete instances used by counterexamples and witnesses -/

/-- Counterexample graph for C3: a bent two-node stub `0 – 1` attached to
the branch node `2`, which also carries the long legs `3` and `4`. -/
def cexG3 : SkelGraph :=
  { nodes := [0, 1, 2, 3, 4]
    pos := fun v =>
      [((0 : ℤ), (0 : ℤ), (0 : ℤ)), (0, 5, 0), (3, 1, 0), (100, 1, 0),
        (3, 100, 0)].getD v (0, 0, 0)
    edges := [(0, 1), (1, 2), (2, 3), (2, 4)] }

/-- Witness graph for C1: a 4-cycle with a chord. -/
def witG1 : SkelGraph :=
  { nodes := [0, 1, 2, 3]
    pos := fun v =>
      [((0 : ℤ), (0 : ℤ), (0 : ℤ)), (1, 0, 0), (1, 1, 0), (0, 1, 0)].getD v
        (0, 0, 0)
    edges := [(0, 1), (1, 2), (2, 3), (3, 0), (0, 2)] }

/-- Counterexample graph for C8: node iteration order `[1, 0]` differs
from the sorted endpoint order. -/
def cexG8 : SkelGraph :=
  { nodes := [1, 0]
    pos := fun v => [((0 : ℤ), (0 : ℤ), (0 : ℤ)), (7, 0, 0)].getD v (0, 0, 0)
    edges := [(0, 1)] }

/-- Witness graph for C8: sorted nodes, every node on an edge. -/
def witG8 : SkelGraph :=
  { nodes := [0, 2, 5]
    pos := fun v =>
      [((0 : ℤ), (0 : ℤ), (0 : ℤ)), (0, 0, 0), (1, 2, 0), (0, 0, 0),
        (0, 0, 0), (3, 4, 5)].getD v (0, 0, 0)
    edges := [(2, 5), (0, 2)] }

/-- Counterexample positions for C4: two single-node fragments 2000 nm
apart (beyond the 1500 nm default bound). -/
def cexPos4 : ℕ → V3 :=
  fun v => [((0 : ℤ), (0 : ℤ), (0 : ℤ)), (2000, 0, 0)].getD v (0, 0, 0)

/-- Counterexample labels for C5: a five-node chain labelled
`1, 1, 1, 3, 3`. -/
def cexAx5 : ℕ → ℕ := fun v => [1, 1, 1, 3, 3].getD v 0

/-- Counterexample edge list for C5. -/
def cexE5 : List (ℕ × ℕ) := [(0, 1), (1, 2), (2, 3), (3, 4)]

/-- Two nodes lie in a common block of the component partition. -/
def SameComp (P : List (List ℕ)) (u v : ℕ) : Prop :=
  ∃ c ∈ P, u ∈ c ∧ v ∈ c

/-- `P` partitions the node list `univ`: non-empty blocks covering
exactly `univ`, pairwise sharing no element. -/
def IsPartition (P : List (List ℕ)) (univ : List ℕ) : Prop :=
  (∀ c ∈ P, c ≠ []) ∧ (∀ v ∈ univ, ∃ c ∈ P, v ∈ c) ∧
  (∀ c ∈ P, ∀ v ∈ c, v ∈ univ) ∧
  P.Pairwise (fun c d => ∀ x, x ∈ c → x ∈ d → False)

/-- The running invariant of Kruskal's scan: the blocks partition the
nodes, blocks + accepted edges account for all nodes, blocks are
connected by the accepted edges, and accepted edges stay within their
block. -/
def KInv (univ : List ℕ) (P : List (List ℕ)) (acc : List (ℕ × ℕ)) : Prop :=
  IsPartition P univ ∧ P.length + acc.length = univ.length ∧
  (∀ c ∈ P, ∀ u ∈ c, ∀ v ∈ c, Reach acc u v) ∧
  (∀ e ∈ acc, SameComp P e.1 e.2)

/-! ## Lemmas: the expansion-based reachability computation -/

theorem addOne_append (s : List ℕ) (a b : ℕ) : ∃ t, addOne s a b = s ++ t := by
  unfold addOne
  by_cases h : a ∈ s ∧ b ∉ s
  · exact ⟨[b], by simp [h]⟩
  · exact ⟨[], by simp [h]⟩

theorem mem_addOne_of_mem {x : ℕ} {s : List ℕ} (a b : ℕ) (hx : x ∈ s) :
    x ∈ addOne s a b := by
  obtain ⟨t, ht⟩ := addOne_append s a b
  rw [ht]
  exact List.mem_append_left t hx

theorem mem_addOne_elim {x : ℕ} {s : List ℕ} {a b : ℕ}
    (hx : x ∈ addOne s a b) : x ∈ s ∨ x = b := by
  unfold addOne at hx
  by_cases h : a ∈ s ∧ b ∉ s
  · rw [if_pos h] at hx
    rcases List.mem_append.1 hx with h1 | h1
    · exact Or.inl h1
    · exact Or.inr (List.mem_singleton.1 h1)
  · rw [if_neg h] at hx
    exact Or.inl hx

theorem addOne_nodup {s : List ℕ} (a b : ℕ) (hs : s.Nodup) :
    (addOne s a b).Nodup := by
  unfold addOne
  by_cases h : a ∈ s ∧ b ∉ s
  · rw [if_pos h]
    simpa [List.nodup_append, hs] using h.2
  · rwa [if_neg h]

theorem mem_addOne_closure {s : List ℕ} {a : ℕ} (b : ℕ) (ha : a ∈ s) :
    b ∈ addOne s a b := by
  unfold addOne
  by_cases h : a ∈ s ∧ b ∉ s
  · rw [if_pos h]; exact List.mem_append_right s (List.mem_singleton_self b)
  · rw [if_neg h]
    rcases not_and_or.1 h with h1 | h1
    · exact absurd ha h1
    · exact not_not.1 h1

theorem addNbrs_append (s : List ℕ) (e : ℕ × ℕ) :
    ∃ t, addNbrs s e = s ++ t := by
  obtain ⟨t1, h1⟩ := addOne_append s e.1 e.2
  obtain ⟨t2, h2⟩ := addOne_append (addOne s e.1 e.2) e.2 e.1
  exact ⟨t1 ++ t2, by rw [addNbrs, h2, h1, List.append_assoc]⟩

theorem mem_addNbrs_of_mem {x : ℕ} {s : List ℕ} (e : ℕ × ℕ) (hx : x ∈ s) :
    x ∈ addNbrs s e := by
  obtain ⟨t, ht⟩ := addNbrs_append s e
  rw [ht]
  exact List.mem_append_left t hx

theorem mem_addNbrs_elim {x : ℕ} {s : List ℕ} {e : ℕ × ℕ}
    (hx : x ∈ addNbrs s e) : x ∈ s ∨ x = e.1 ∨ x = e.2 := by
  rcases mem_addOne_elim hx with h | h
  · rcases mem_addOne_elim h with h2 | h2
    · exact Or.inl h2
    · exact Or.inr (Or.inr h2)
  · exact Or.inr (Or.inl h)

theorem addNbrs_nodup {s : List ℕ} (e : ℕ × ℕ) (hs : s.Nodup) :
    (addNbrs s e).Nodup :=
  addOne_nodup _ _ (addOne_nodup _ _ hs)

theorem addNbrs_closure_fst {s : List ℕ} {e : ℕ × ℕ} (h : e.1 ∈ s) :
    e.2 ∈ addNbrs s e :=
  mem_addOne_of_mem _ _ (mem_addOne_closure e.2 h)

theorem addNbrs_closure_snd {s : List ℕ} {e : ℕ × ℕ} (h : e.2 ∈ s) :
    e.1 ∈ addNbrs s e :=
  mem_addOne_closure e.1 (mem_addOne_of_mem _ _ h)

theorem foldl_addNbrs_append (L : List (ℕ × ℕ)) :
    ∀ s : List ℕ, ∃ t, L.foldl addNbrs s = s ++ t := by
  induction L with
  | nil => exact fun s => ⟨[], by simp⟩
  | cons e es ih =>
      intro s
      obtain ⟨t1, h1⟩ := addNbrs_append s e
      obtain ⟨t2, h2⟩ := ih (addNbrs s e)
      exact ⟨t1 ++ t2, by rw [List.foldl_cons, h2, h1, List.append_assoc]⟩

theorem mem_foldl_addNbrs_of_mem {x : ℕ} {s : List ℕ} (L : List (ℕ × ℕ))
    (hx : x ∈ s) : x ∈ L.foldl addNbrs s := by
  obtain ⟨t, ht⟩ := foldl_addNbrs_append L s
  rw [ht]
  exact List.mem_append_left t hx

theorem mem_foldl_addNbrs_elim {x : ℕ} (L : List (ℕ × ℕ)) :
    ∀ {s : List ℕ}, x ∈ L.foldl addNbrs s → x ∈ s ∨ x ∈ endPts L := by
  induction L with
  | nil => exact fun h => Or.inl h
  | cons e es ih =>
      intro s hx
      rcases ih hx with h | h
      · rcases mem_addNbrs_elim h with h2 | h2 | h2
        · exact Or.inl h2
        · exact Or.inr (by simp [endPts, h2])
        · exact Or.inr (by simp [endPts, h2])
      · refine Or.inr ?_
        simp only [endPts, List.flatMap_cons] at h ⊢
        simp only [List.mem_append]
        exact Or.inr (by simpa [endPts] using h)

theorem foldl_addNbrs_nodup {s : List ℕ} (L : List (ℕ × ℕ))
    (hs : s.Nodup) : (L.foldl addNbrs s).Nodup := by
  induction L generalizing s with
  | nil => exact hs
  | cons e es ih => exact ih (addNbrs_nodup e hs)

theorem foldl_addNbrs_closure_fst {e : ℕ × ℕ} (L : List (ℕ × ℕ))
    (heL : e ∈ L) : ∀ {s : List ℕ}, e.1 ∈ s → e.2 ∈ L.foldl addNbrs s := by
  induction L with
  | nil => exact absurd heL (List.not_mem_nil e)
  | cons f fs ih =>
      intro s h1
      rcases List.mem_cons.1 heL with h | h
      · subst h
        exact mem_foldl_addNbrs_of_mem fs (addNbrs_closure_fst h1)
      · exact ih h (mem_addNbrs_of_mem f h1)

theorem foldl_addNbrs_closure_snd {e : ℕ × ℕ} (L : List (ℕ × ℕ))
    (heL : e ∈ L) : ∀ {s : List ℕ}, e.2 ∈ s → e.1 ∈ L.foldl addNbrs s := by
  induction L with
  | nil => exact absurd heL (List.not_mem_nil e)
  | cons f fs ih =>
      intro s h1
      rcases List.mem_cons.1 heL with h | h
      · subst h
        exact mem_foldl_addNbrs_of_mem fs (addNbrs_closure_snd h1)
      · exact ih h (mem_addNbrs_of_mem f h1)

theorem foldl_addNbrs_sound {E : List (ℕ × ℕ)} {u : ℕ} (L : List (ℕ × ℕ))
    (hLE : ∀ e ∈ L, e ∈ E) :
    ∀ {s : List ℕ}, (∀ x ∈ s, Reach E u x) →
      ∀ x ∈ L.foldl addNbrs s, Reach E u x := by
  induction L with
  | nil => exact fun hs => hs
  | cons e es ih =>
      intro s hs
      refine ih (fun f hf => hLE f (List.mem_cons_of_mem e hf)) ?_
      intro x hx
      rcases mem_addNbrs_elim hx with h | h | h
      · exact hs x h
      · -- x = e.1 was added because e.2 ∈ s (or was already present)
        subst h
        by_cases h2 : e.1 ∈ s
        · exact hs _ h2
        · -- then the inner addOne added it, so e.2 ∈ addOne s e.1 e.2
          have he : e ∈ E := hLE e (List.mem_cons_self e es)
          -- e.1 ∈ addNbrs s e but e.1 ∉ s: the outer addOne fired,
          -- so e.2 ∈ addOne s e.1 e.2, hence e.2 ∈ s ∨ e.2 = e.2
          unfold addNbrs addOne at hx
          by_cases hin : e.1 ∈ s ∧ e.2 ∉ s
          · -- inner branch fired; but then e.1 ∈ s, contradiction
            exact absurd hin.1 h2
          · rw [if_neg hin] at hx
            by_cases hout : e.2 ∈ s ∧ e.1 ∉ s
            · exact (hs _ hout.1).tail (Or.inr he)
            · rw [if_neg hout] at hx
              exact absurd hx h2
      · subst h
        by_cases h2 : e.2 ∈ s
        · exact hs _ h2
        · have he : e ∈ E := hLE e (List.mem_cons_self e es)
          unfold addNbrs addOne at hx
          by_cases hin : e.1 ∈ s ∧ e.2 ∉ s
          · exact (hs _ hin.1).tail (Or.inl he)
          · rw [if_neg hin] at hx
            by_cases hout : e.2 ∈ s ∧ e.1 ∉ s
            · exact absurd hout.1 h2
            · rw [if_neg hout] at hx
              exact absurd hx h2

theorem stepReach_append (E : List (ℕ × ℕ)) (s : List ℕ) :
    ∃ t, stepReach E s = s ++ t :=
  foldl_addNbrs_append E s

theorem mem_stepReach_of_mem {x : ℕ} {s : List ℕ} (E : List (ℕ × ℕ))
    (hx : x ∈ s) : x ∈ stepReach E s :=
  mem_foldl_addNbrs_of_mem E hx

theorem mem_iterReach_of_mem {x : ℕ} (E : List (ℕ × ℕ)) (n : ℕ) :
    ∀ {s : List ℕ}, x ∈ s → x ∈ iterReach E n s := by
  induction n with
  | zero => exact fun h => h
  | succ n ih => exact fun h => ih (mem_stepReach_of_mem E h)

theorem mem_iterReach_elim {x : ℕ} (E : List (ℕ × ℕ)) (n : ℕ) :
    ∀ {s : List ℕ}, x ∈ iterReach E n s → x ∈ s ∨ x ∈ endPts E := by
  induction n with
  | zero => exact fun h => Or.inl h
  | succ n ih =>
      intro s hx
      rcases ih hx with h | h
      · exact mem_foldl_addNbrs_elim E h
      · exact Or.inr h

theorem iterReach_nodup {s : List ℕ} (E : List (ℕ × ℕ)) (n : ℕ)
    (hs : s.Nodup) : (iterReach E n s).Nodup := by
  induction n generalizing s with
  | zero => exact hs
  | succ n ih => exact ih (foldl_addNbrs_nodup E hs)

theorem iterReach_of_fix {s : List ℕ} (E : List (ℕ × ℕ))
    (h : stepReach E s = s) : ∀ n, iterReach E n s = s := by
  intro n
  induction n with
  | zero => rfl
  | succ n ih => simpa [iterReach, h] using ih

theorem nodup_length_le {l l' : List ℕ} (hn : l.Nodup) (hsub : l ⊆ l') :
    l.length ≤ l'.length := by
  calc l.length = l.toFinset.card := (List.toFinset_card_of_nodup hn).symm
    _ ≤ l'.toFinset.card := Finset.card_le_card (fun x hx => by
        simpa [List.mem_toFinset] using hsub (by simpa [List.mem_toFinset] using hx))
    _ ≤ l'.length := List.toFinset_card_le l'

theorem iterReach_saturates (E : List (ℕ × ℕ)) (B : List ℕ)
    (hE : ∀ x ∈ endPts E, x ∈ B) :
    ∀ (k : ℕ) (s : List ℕ), s.Nodup → (∀ x ∈ s, x ∈ B) →
      B.length ≤ s.length + k →
      stepReach E (iterReach E k s) = iterReach E k s := by
  intro k
  induction k with
  | zero =>
      intro s hnd hsub hlen
      obtain ⟨t, ht⟩ := stepReach_append E s
      have hsub2 : ∀ x ∈ stepReach E s, x ∈ B := by
        intro x hx
        rcases mem_foldl_addNbrs_elim E hx with h | h
        · exact hsub x h
        · exact hE x h
      have hnd2 : (stepReach E s).Nodup := foldl_addNbrs_nodup E hnd
      have hlen2 : (stepReach E s).length ≤ B.length :=
        nodup_length_le hnd2 hsub2
      rw [ht] at hlen2
      simp only [List.length_append] at hlen2
      have ht0 : t.length = 0 := by omega
      have : t = [] := List.length_eq_zero.1 ht0
      subst this
      simpa using ht
  | succ k ih =>
      intro s hnd hsub hlen
      by_cases hfix : stepReach E s = s
      · rw [iterReach_of_fix E hfix]
        exact hfix
      · obtain ⟨t, ht⟩ := stepReach_append E s
        have htne : t ≠ [] := by
          intro h
          subst h
          exact hfix (by simpa using ht)
        have hlt : s.length + 1 ≤ (stepReach E s).length := by
          rw [ht]
          simp only [List.length_append]
          have : 1 ≤ t.length := by
            cases t with
            | nil => exact absurd rfl htne
            | cons a b => simp
          omega
        have hsr : iterReach E (k + 1) s = iterReach E k (stepReach E s) := rfl
        rw [hsr]
        refine ih (stepReach E s) (foldl_addNbrs_nodup E hnd) ?_ ?_
        · intro x hx
          rcases mem_foldl_addNbrs_elim E hx with h | h
          · exact hsub x h
          · exact hE x h
        · omega

theorem length_endPts (E : List (ℕ × ℕ)) : (endPts E).length = 2 * E.length := by
  induction E with
  | nil => simp [endPts]
  | cons e es ih =>
      simp only [endPts, List.flatMap_cons, List.length_append] at ih ⊢
      simp [ih]
      omega

theorem stepReach_reachList (E : List (ℕ × ℕ)) (u : ℕ) :
    stepReach E (reachList E u) = reachList E u := by
  have h := iterReach_saturates E (u :: endPts E)
    (fun x hx => List.mem_cons_of_mem u hx) (2 * E.length + 1) [u]
    (List.nodup_singleton u) (fun x hx => by
      simpa using Or.inl (List.mem_singleton.1 hx))
  refine h ?_
  simp [length_endPts E]

theorem self_mem_reachList (E : List (ℕ × ℕ)) (u : ℕ) :
    u ∈ reachList E u :=
  mem_iterReach_of_mem E _ (List.mem_singleton_self u)

theorem reachList_sound {E : List (ℕ × ℕ)} {u x : ℕ}
    (hx : x ∈ reachList E u) : Reach E u x := by
  have : ∀ n s, (∀ y ∈ s, Reach E u y) → ∀ y ∈ iterReach E n s, Reach E u y := by
    intro n
    induction n with
    | zero => exact fun s hs => hs
    | succ n ih =>
        intro s hs
        exact ih _ (foldl_addNbrs_sound E (fun e he => he) hs)
  refine this _ [u] ?_ x hx
  intro y hy
  rw [List.mem_singleton.1 hy]
  exact Relation.ReflTransGen.refl

theorem reachList_complete {E : List (ℕ × ℕ)} {u x : ℕ}
    (hx : Reach E u x) : x ∈ reachList E u := by
  induction hx with
  | refl => exact self_mem_reachList E u
  | tail hab hbc ih =>
      rename_i b c
      have hstep : c ∈ stepReach E (reachList E u) := by
        rcases hbc with h | h
        · exact foldl_addNbrs_closure_fst E h ih
        · exact foldl_addNbrs_closure_snd E h ih
      rwa [stepReach_reachList E u] at hstep

theorem reachB_iff {E : List (ℕ × ℕ)} {u v : ℕ} :
    reachB E u v = true ↔ Reach E u v := by
  constructor
  · intro h
    exact reachList_sound (by simpa [reachB] using h)
  · intro h
    simpa [reachB] using reachList_complete h

theorem reach_symm {E : List (ℕ × ℕ)} {u v : ℕ} (h : Reach E u v) :
    Reach E v u := by
  induction h with
  | refl => exact Relation.ReflTransGen.refl
  | tail hab hbc ih =>
      refine Relation.ReflTransGen.trans ?_ ih
      rcases hbc with h | h
      · exact Relation.ReflTransGen.single (Or.inr h)
      · exact Relation.ReflTransGen.single (Or.inl h)

theorem reach_mono {E F : List (ℕ × ℕ)} (hEF : ∀ e ∈ E, e ∈ F) {u v : ℕ}
    (h : Reach E u v) : Reach F u v := by
  induction h with
  | refl => exact Relation.ReflTransGen.refl
  | tail hab hbc ih =>
      refine ih.tail ?_
      rcases hbc with h | h
      · exact Or.inl (hEF _ h)
      · exact Or.inr (hEF _ h)

theorem reach_of_adj {E : List (ℕ × ℕ)} {u v : ℕ}
    (h : adjB E u v = true) : Reach E u v := by
  simp only [adjB, List.any_eq_true] at h
  obtain ⟨e, heE, he⟩ := h
  rcases Bool.or_eq_true_iff.1 he with h2 | h2
  · have h3 := Bool.and_eq_true_iff.1 h2
    have e1 : e.1 = u := eq_of_beq h3.1
    have e2 : e.2 = v := eq_of_beq h3.2
    refine Relation.ReflTransGen.single (Or.inl ?_)
    rwa [← e1, ← e2, Prod.mk.eta]
  · have h3 := Bool.and_eq_true_iff.1 h2
    have e1 : e.1 = v := eq_of_beq h3.1
    have e2 : e.2 = u := eq_of_beq h3.2
    refine Relation.ReflTransGen.single (Or.inr ?_)
    rwa [← e1, ← e2, Prod.mk.eta]

theorem mem_reachList_elim {E : List (ℕ × ℕ)} {u x : ℕ}
    (hx : x ∈ reachList E u) : x = u ∨ x ∈ endPts E := by
  rcases mem_iterReach_elim E _ hx with h | h
  · exact Or.inl (List.mem_singleton.1 h)
  · exact Or.inr h

theorem reachList_nodup (E : List (ℕ × ℕ)) (u : ℕ) :
    (reachList E u).Nodup :=
  iterReach_nodup E _ (List.nodup_singleton u)

theorem mem_reachList_iff {E : List (ℕ × ℕ)} {u x : ℕ} :
    x ∈ reachList E u ↔ Reach E u x :=
  ⟨reachList_sound, reachList_complete⟩

/-! ## Lemmas: connected components -/

theorem ccFold_skip_all (E : List (ℕ × ℕ)) :
    ∀ (vs : List ℕ) (acc : List (List ℕ) × List ℕ),
      (∀ v ∈ vs, v ∈ acc.2) → vs.foldl (ccStep E) acc = acc := by
  intro vs
  induction vs with
  | nil => exact fun acc _ => rfl
  | cons v rest ih =>
      intro acc h
      have hv : v ∈ acc.2 := h v (List.mem_cons_self v rest)
      simp only [List.foldl_cons, ccStep, if_pos hv]
      exact ih acc (fun w hw => h w (List.mem_cons_of_mem v hw))

theorem connectedComponents_single {E : List (ℕ × ℕ)} {v : ℕ}
    {rest : List ℕ} (h : ∀ w ∈ rest, w ∈ reachList E v) :
    connectedComponents (v :: rest) E = [reachList E v] := by
  unfold connectedComponents
  rw [List.foldl_cons]
  show ((rest.foldl (ccStep E)
    (if v ∈ ([] : List ℕ) then (([], []) : List (List ℕ) × List ℕ)
     else ([] ++ [reachList E v], [] ++ reachList E v)))).1 = _
  rw [if_neg (List.not_mem_nil v)]
  rw [ccFold_skip_all E rest (([] ++ [reachList E v], [] ++ reachList E v))
    (by intro w hw; simpa using h w hw)]
  simp

theorem ccFold_comps_append (E : List (ℕ × ℕ)) :
    ∀ (vs : List ℕ) (acc : List (List ℕ) × List ℕ),
      ∃ D, (vs.foldl (ccStep E) acc).1 = acc.1 ++ D := by
  intro vs
  induction vs with
  | nil => exact fun acc => ⟨[], by simp⟩
  | cons v rest ih =>
      intro acc
      rw [List.foldl_cons]
      by_cases hv : v ∈ acc.2
      · simpa [ccStep, hv] using ih acc
      · obtain ⟨D, hD⟩ := ih (acc.1 ++ [reachList E v], acc.2 ++ reachList E v)
        refine ⟨[reachList E v] ++ D, ?_⟩
        simp only [ccStep, if_neg hv]
        rw [hD, List.append_assoc]

theorem ccFold_comps_reach (E : List (ℕ × ℕ)) :
    ∀ (vs : List ℕ) (acc : List (List ℕ) × List ℕ),
      (∀ c ∈ acc.1, ∃ u, c = reachList E u) →
      ∀ c ∈ (vs.foldl (ccStep E) acc).1, ∃ u, c = reachList E u := by
  intro vs
  induction vs with
  | nil => exact fun acc h => h
  | cons v rest ih =>
      intro acc h
      rw [List.foldl_cons]
      by_cases hv : v ∈ acc.2
      · simpa [ccStep, hv] using ih acc h
      · refine ih _ ?_
        intro c hc
        simp only [ccStep, if_neg hv] at hc
        rcases List.mem_append.1 hc with h2 | h2
        · exact h c h2
        · exact ⟨v, List.mem_singleton.1 h2⟩

theorem ccFold_covers (E : List (ℕ × ℕ)) :
    ∀ (vs : List ℕ) (acc : List (List ℕ) × List ℕ),
      (∀ x ∈ acc.2, ∃ c ∈ acc.1, x ∈ c) →
      ∀ v, (v ∈ vs ∨ v ∈ acc.2) →
        ∃ c ∈ (vs.foldl (ccStep E) acc).1, v ∈ c := by
  intro vs
  induction vs with
  | nil =>
      intro acc hinv v hv
      rcases hv with h | h
      · exact absurd h (List.not_mem_nil v)
      · exact hinv v h
  | cons w rest ih =>
      intro acc hinv v hv
      rw [List.foldl_cons]
      by_cases hw : w ∈ acc.2
      · have : ccStep E acc w = acc := by simp [ccStep, hw]
        rw [this]
        refine ih acc hinv v ?_
        rcases hv with h | h
        · rcases List.mem_cons.1 h with h2 | h2
          · exact Or.inr (h2 ▸ hw)
          · exact Or.inl h2
        · exact Or.inr h
      · have hstep : ccStep E acc w
            = (acc.1 ++ [reachList E w], acc.2 ++ reachList E w) := by
          simp [ccStep, hw]
        rw [hstep]
        have hinv2 : ∀ x ∈ acc.2 ++ reachList E w,
            ∃ c ∈ acc.1 ++ [reachList E w], x ∈ c := by
          intro x hx
          rcases List.mem_append.1 hx with h2 | h2
          · obtain ⟨c, hc, hxc⟩ := hinv x h2
            exact ⟨c, List.mem_append_left _ hc, hxc⟩
          · exact ⟨reachList E w,
              List.mem_append_right _ (List.mem_singleton_self _), h2⟩
        refine ih _ hinv2 v ?_
        rcases hv with h | h
        · rcases List.mem_cons.1 h with h2 | h2
          · subst h2
            exact Or.inr (List.mem_append_right _ (self_mem_reachList E v))
          · exact Or.inl h2
        · exact Or.inr (List.mem_append_left _ h)

theorem connectedComponents_covers {E : List (ℕ × ℕ)} {vs : List ℕ}
    {v : ℕ} (hv : v ∈ vs) : ∃ c ∈ connectedComponents vs E, v ∈ c := by
  unfold connectedComponents
  exact ccFold_covers E vs ([], []) (by intro x hx; simp at hx) v (Or.inl hv)

theorem connectedComponents_are_reach {E : List (ℕ × ℕ)} {vs : List ℕ}
    {c : List ℕ} (hc : c ∈ connectedComponents vs E) :
    ∃ u, c = reachList E u := by
  unfold connectedComponents at hc
  exact ccFold_comps_reach E vs ([], []) (by intro x hx; simp at hx) c hc

/-! ## Lemmas: partitions and Kruskal's scan -/

theorem findComp_mem {P : List (List ℕ)} {u : ℕ} {c : List ℕ}
    (h : findComp P u = some c) : c ∈ P ∧ u ∈ c := by
  unfold findComp at h
  refine ⟨List.mem_of_find?_eq_some h, ?_⟩
  have := List.find?_some h
  simpa using this

theorem findComp_isSome {P : List (List ℕ)} {u : ℕ} {c : List ℕ}
    (hc : c ∈ P) (hu : u ∈ c) : ∃ d, findComp P u = some d ∧ d ∈ P ∧ u ∈ d := by
  have hex : (findComp P u).isSome = true := by
    unfold findComp
    rw [List.find?_isSome]
    exact ⟨c, hc, by simpa using hu⟩
  obtain ⟨d, hd⟩ := Option.isSome_iff_exists.1 hex
  obtain ⟨h1, h2⟩ := findComp_mem hd
  exact ⟨d, hd, h1, h2⟩

theorem disjointRel_symm :
    Symmetric (fun c d : List ℕ => ∀ x, x ∈ c → x ∈ d → False) :=
  fun _ _ h x hx1 hx2 => h x hx2 hx1

theorem partition_nodup {P : List (List ℕ)} {univ : List ℕ}
    (hP : IsPartition P univ) : P.Nodup := by
  obtain ⟨hne, _, _, hdisj⟩ := hP
  have : P.Pairwise (fun c d => c ≠ d) := by
    refine List.Pairwise.imp_of_mem ?_ hdisj
    intro c d hc _ h hcd
    subst hcd
    cases hc2 : c with
    | nil => exact hne c hc hc2
    | cons a t =>
        subst hc2
        exact h a (List.mem_cons_self a t) (List.mem_cons_self a t)
  exact this

theorem partition_disjoint {P : List (List ℕ)} {univ : List ℕ}
    (hP : IsPartition P univ) {c d : List ℕ} (hc : c ∈ P) (hd : d ∈ P)
    (hcd : c ≠ d) : ∀ x, x ∈ c → x ∈ d → False := by
  obtain ⟨_, _, _, hdisj⟩ := hP
  exact List.Pairwise.forall disjointRel_symm hdisj hc hd hcd

theorem sameComp_trans {P : List (List ℕ)} {univ : List ℕ}
    (hP : IsPartition P univ) {u v w : ℕ} (h1 : SameComp P u v)
    (h2 : SameComp P v w) : SameComp P u w := by
  obtain ⟨c, hc, hu, hv⟩ := h1
  obtain ⟨d, hd, hv2, hw⟩ := h2
  by_cases hcd : c = d
  · subst hcd
    exact ⟨c, hc, hu, hw⟩
  · exact absurd (partition_disjoint hP hc hd hcd v hv hv2) (fun h => h)

theorem sameComp_symm {P : List (List ℕ)} {u v : ℕ}
    (h : SameComp P u v) : SameComp P v u := by
  obtain ⟨c, hc, hu, hv⟩ := h
  exact ⟨c, hc, hv, hu⟩

theorem mem_erase2 {P : List (List ℕ)} (hnd : P.Nodup) {c1 c2 d : List ℕ}
    (hd : d ∈ (P.erase c1).erase c2) : d ∈ P ∧ d ≠ c1 ∧ d ≠ c2 := by
  have h1 := (List.Nodup.mem_erase_iff (List.Nodup.erase c1 hnd)).1 hd
  have h2 := (List.Nodup.mem_erase_iff hnd).1 h1.2
  exact ⟨h2.2, h2.1, h1.1⟩

theorem mem_erase2_of {P : List (List ℕ)} (hnd : P.Nodup) {c1 c2 d : List ℕ}
    (hdP : d ∈ P) (h1 : d ≠ c1) (h2 : d ≠ c2) :
    d ∈ (P.erase c1).erase c2 := by
  refine (List.Nodup.mem_erase_iff (List.Nodup.erase c1 hnd)).2 ⟨h2, ?_⟩
  exact (List.Nodup.mem_erase_iff hnd).2 ⟨h1, hdP⟩

theorem reach_append_right {E F : List (ℕ × ℕ)} {u v : ℕ}
    (h : Reach E u v) : Reach (E ++ F) u v :=
  reach_mono (fun _ he => List.mem_append_left F he) h

theorem spanStep_main {univ : List ℕ} {P : List (List ℕ)}
    {acc : List (ℕ × ℕ)} {e : ℕ × ℕ} (h : KInv univ P acc)
    (h1 : e.1 ∈ univ) (h2 : e.2 ∈ univ) :
    KInv univ (spanStep (P, acc) e).1 (spanStep (P, acc) e).2
    ∧ SameComp (spanStep (P, acc) e).1 e.1 e.2
    ∧ (∀ u v, SameComp P u v → SameComp (spanStep (P, acc) e).1 u v)
    ∧ ((spanStep (P, acc) e).2 = acc ∨ (spanStep (P, acc) e).2 = acc ++ [e]) := by
  obtain ⟨hpart, hlen, hconn, hacc⟩ := h
  have hcov := hpart.2.1
  obtain ⟨c1m, hc1m, hvc1⟩ := hcov e.1 h1
  obtain ⟨b1, hb1, hb1P, he1⟩ := findComp_isSome hc1m hvc1
  obtain ⟨c2m, hc2m, hvc2⟩ := hcov e.2 h2
  obtain ⟨b2, hb2, hb2P, he2⟩ := findComp_isSome hc2m hvc2
  have hnd : P.Nodup := partition_nodup hpart
  by_cases heq : b1 = b2
  · -- the edge is rejected: nothing changes
    have hstep : spanStep (P, acc) e = (P, acc) := by
      simp [spanStep, hb1, hb2, heq]
    rw [hstep]
    refine ⟨⟨hpart, hlen, hconn, hacc⟩, ⟨b1, hb1P, he1, heq ▸ he2⟩,
      fun u v hs => hs, Or.inl rfl⟩
  · -- the edge is accepted and the two blocks merge
    have hstep : spanStep (P, acc) e
        = ((b1 ++ b2) :: (P.erase b1).erase b2, acc ++ [e]) := by
      simp [spanStep, hb1, hb2, heq]
    rw [hstep]
    have hb2e : b2 ∈ P.erase b1 :=
      (List.Nodup.mem_erase_iff hnd).2 ⟨fun h => heq h.symm, hb2P⟩
    have hlenP : 2 ≤ P.length := by
      have l1 : (P.erase b1).length = P.length - 1 :=
        List.length_erase_of_mem hb1P
      have l2 : 1 ≤ (P.erase b1).length := by
        cases hti : P.erase b1 with
        | nil => rw [hti] at hb2e; exact absurd hb2e (List.not_mem_nil b2)
        | cons x t => simp [hti]
      omega
    have hrest_len : ((P.erase b1).erase b2).length = P.length - 2 := by
      have l1 : (P.erase b1).length = P.length - 1 :=
        List.length_erase_of_mem hb1P
      have l2 : ((P.erase b1).erase b2).length = (P.erase b1).length - 1 :=
        List.length_erase_of_mem hb2e
      omega
    have hmono : ∀ u v, SameComp P u v →
        SameComp ((b1 ++ b2) :: (P.erase b1).erase b2) u v := by
      intro u v ⟨c, hc, hu, hv⟩
      by_cases hcb1 : c = b1
      · exact ⟨b1 ++ b2, List.mem_cons_self _ _,
          List.mem_append_left _ (hcb1 ▸ hu), List.mem_append_left _ (hcb1 ▸ hv)⟩
      · by_cases hcb2 : c = b2
        · exact ⟨b1 ++ b2, List.mem_cons_self _ _,
            List.mem_append_right _ (hcb2 ▸ hu),
            List.mem_append_right _ (hcb2 ▸ hv)⟩
        · exact ⟨c, List.mem_cons_of_mem _ (mem_erase2_of hnd hc hcb1 hcb2),
            hu, hv⟩
    have hrest_sub : List.Sublist ((P.erase b1).erase b2) P :=
      List.Sublist.trans (List.erase_sublist b2 (P.erase b1))
        (List.erase_sublist b1 P)
    have hpart2 : IsPartition ((b1 ++ b2) :: (P.erase b1).erase b2) univ := by
      obtain ⟨hne, hcov2, hun, hdisj⟩ := id hpart
      refine ⟨?_, ?_, ?_, ?_⟩
      · intro c hc
        rcases List.mem_cons.1 hc with h | h
        · subst h
          intro habs
          exact hne b1 hb1P (by
            cases b1 with
            | nil => rfl
            | cons x t => simp at habs)
        · exact hne c (hrest_sub.subset h)
      · intro v hv
        obtain ⟨c, hc, hvc⟩ := hcov2 v hv
        obtain ⟨c', hc', hu', hv'⟩ := hmono v v ⟨c, hc, hvc, hvc⟩
        exact ⟨c', hc', hu'⟩
      · intro c hc v hv
        rcases List.mem_cons.1 hc with h | h
        · subst h
          rcases List.mem_append.1 hv with h | h
          · exact hun b1 hb1P v h
          · exact hun b2 hb2P v h
        · exact hun c (hrest_sub.subset h) v hv
      · rw [List.pairwise_cons]
        constructor
        · intro d hd x hx1 hx2
          obtain ⟨hdP, hd1, hd2⟩ := mem_erase2 hnd hd
          rcases List.mem_append.1 hx1 with h | h
          · exact partition_disjoint hpart hb1P hdP (fun hh => hd1 hh.symm) x h hx2
          · exact partition_disjoint hpart hb2P hdP (fun hh => hd2 hh.symm) x h hx2
        · exact List.Pairwise.sublist hrest_sub hdisj
    refine ⟨⟨hpart2, ?_, ?_, ?_⟩, ?_, hmono, Or.inr rfl⟩
    · have l1 : ((b1 ++ b2) :: (P.erase b1).erase b2).length = P.length - 1 := by
        simp only [List.length_cons, hrest_len]
        omega
      have l2 : (acc ++ [e]).length = acc.length + 1 := by simp
      rw [l1, l2]
      omega
    · -- connectivity of the blocks under acc ++ [e]
      intro c hc u hu v hv
      rcases List.mem_cons.1 hc with h | h
      · subst h
        have hedge : Reach (acc ++ [e]) e.1 e.2 :=
          Relation.ReflTransGen.single
            (Or.inl (List.mem_append_right acc (List.mem_singleton_self e)))
        rcases List.mem_append.1 hu with hu1 | hu2
        · rcases List.mem_append.1 hv with hv1 | hv2
          · exact reach_append_right (hconn b1 hb1P u hu1 v hv1)
          · refine Relation.ReflTransGen.trans
              (reach_append_right (hconn b1 hb1P u hu1 e.1 he1)) ?_
            exact Relation.ReflTransGen.trans hedge
              (reach_append_right (hconn b2 hb2P e.2 he2 v hv2))
        · rcases List.mem_append.1 hv with hv1 | hv2
          · refine Relation.ReflTransGen.trans
              (reach_append_right (hconn b2 hb2P u hu2 e.2 he2)) ?_
            exact Relation.ReflTransGen.trans (reach_symm hedge)
              (reach_append_right (hconn b1 hb1P e.1 he1 v hv1))
          · exact reach_append_right (hconn b2 hb2P u hu2 v hv2)
      · exact reach_append_right
          (hconn c (hrest_sub.subset h) u hu v hv)
    · intro f hf
      rcases List.mem_append.1 hf with h | h
      · exact hmono f.1 f.2 (hacc f h)
      · rw [List.mem_singleton.1 h]
        exact ⟨b1 ++ b2, List.mem_cons_self _ _, List.mem_append_left _ he1,
          List.mem_append_right _ he2⟩
    · exact ⟨b1 ++ b2, List.mem_cons_self _ _, List.mem_append_left _ he1,
        List.mem_append_right _ he2⟩

theorem kruskal_fold_inv {univ : List ℕ} :
    ∀ (L : List (ℕ × ℕ)) (P : List (List ℕ)) (acc : List (ℕ × ℕ)),
      KInv univ P acc → (∀ e ∈ L, e.1 ∈ univ ∧ e.2 ∈ univ) →
      KInv univ (L.foldl spanStep (P, acc)).1 (L.foldl spanStep (P, acc)).2
      ∧ (∀ e ∈ L, SameComp (L.foldl spanStep (P, acc)).1 e.1 e.2)
      ∧ (∀ u v, SameComp P u v → SameComp (L.foldl spanStep (P, acc)).1 u v) := by
  intro L
  induction L with
  | nil => exact fun P acc h _ => ⟨h, by simp, fun u v hs => hs⟩
  | cons e es ih =>
      intro P acc h hend
      have hme := hend e (List.mem_cons_self e es)
      obtain ⟨hK, hSC, hmono, _⟩ := spanStep_main h hme.1 hme.2
      have hstep : (e :: es).foldl spanStep (P, acc)
          = es.foldl spanStep (spanStep (P, acc) e) := by
        simp [List.foldl_cons]
      obtain ⟨ih1, ih2, ih3⟩ := ih (spanStep (P, acc) e).1
        (spanStep (P, acc) e).2 hK
        (fun f hf => hend f (List.mem_cons_of_mem e hf))
      rw [hstep]
      refine ⟨ih1, ?_, ?_⟩
      · intro f hf
        rcases List.mem_cons.1 hf with hfe | hfe
        · subst hfe
          exact ih3 f.1 f.2 hSC
        · exact ih2 f hfe
      · intro u v hs
        exact ih3 u v (hmono u v hs)

theorem kinv_init {univ : List ℕ} (hnd : univ.Nodup) :
    KInv univ (univ.map (fun v => [v])) [] := by
  refine ⟨⟨?_, ?_, ?_, ?_⟩, by simp, ?_, by simp⟩
  · intro c hc
    obtain ⟨u, _, hu⟩ := List.mem_map.1 hc
    subst hu
    simp
  · intro v hv
    exact ⟨[v], List.mem_map_of_mem _ hv, List.mem_singleton_self v⟩
  · intro c hc v hv
    obtain ⟨u, hu, huc⟩ := List.mem_map.1 hc
    subst huc
    rwa [List.mem_singleton.1 hv]
  · rw [List.pairwise_map]
    refine List.Pairwise.imp_of_mem ?_ hnd
    intro a b _ _ hab x hx1 hx2
    exact hab ((List.mem_singleton.1 hx1) ▸ (List.mem_singleton.1 hx2).symm ▸ rfl)
  · intro c hc u hu v hv
    obtain ⟨w, _, hw⟩ := List.mem_map.1 hc
    subst hw
    rw [List.mem_singleton.1 hu, List.mem_singleton.1 hv]
    exact Relation.ReflTransGen.refl

theorem partition_length_one {univ : List ℕ} {P : List (List ℕ)}
    (hP : IsPartition P univ) (hne : univ ≠ [])
    (hall : ∀ u ∈ univ, ∀ v ∈ univ, SameComp P u v) : P.length = 1 := by
  obtain ⟨hneb, hcov, hun, _⟩ := id hP
  cases hPc : P with
  | nil =>
      obtain ⟨u, hu⟩ := List.exists_mem_of_ne_nil univ hne
      obtain ⟨c, hc, _⟩ := hcov u hu
      rw [hPc] at hc
      exact absurd hc (List.not_mem_nil c)
  | cons c rest =>
      cases hrest : rest with
      | nil => rfl
      | cons d rest2 =>
          exfalso
          subst hrest
          have hcP : c ∈ P := by rw [hPc]; exact List.mem_cons_self _ _
          have hdP : d ∈ P := by
            rw [hPc]
            exact List.mem_cons_of_mem _ (List.mem_cons_self _ _)
          obtain ⟨x, hx⟩ := List.exists_mem_of_ne_nil c (hneb c hcP)
          obtain ⟨y, hy⟩ := List.exists_mem_of_ne_nil d (hneb d hdP)
          have hxu : x ∈ univ := hun c hcP x hx
          have hyu : y ∈ univ := hun d hdP y hy
          obtain ⟨c', hc', hxc', hyc'⟩ := hall x hxu y hyu
          have hcc' : c' = c := by
            by_contra hne2
            exact partition_disjoint hP hc' hcP hne2 x hxc' hx
          have hcd' : c' = d := by
            by_contra hne2
            exact partition_disjoint hP hc' hdP hne2 y hyc' hy
          have hnd : P.Nodup := partition_nodup hP
          rw [hPc] at hnd
          have : c ≠ d := by
            have := List.pairwise_cons.1 hnd
            exact this.1 d (List.mem_cons_self _ _)
          exact this (hcc' ▸ hcd')

/-! ## Lemmas: insertion sort -/

theorem insertLe_perm {α : Type} (le : α → α → Bool) (x : α) :
    ∀ l : List α, List.Perm (insertLe le x l) (x :: l) := by
  intro l
  induction l with
  | nil => exact List.Perm.refl _
  | cons y ys ih =>
      unfold insertLe
      by_cases h : le x y
      · rw [if_pos h]
      · rw [if_neg h]
        exact List.Perm.trans (List.Perm.cons y ih) (List.Perm.swap x y ys)

theorem isortLe_perm {α : Type} (le : α → α → Bool) (l : List α) :
    List.Perm (isortLe le l) l := by
  induction l with
  | nil => exact List.Perm.refl _
  | cons x xs ih =>
      unfold isortLe at ih ⊢
      rw [List.foldr_cons]
      exact List.Perm.trans (insertLe_perm le x _) (List.Perm.cons x ih)

theorem mem_isortLe {α : Type} (le : α → α → Bool) (l : List α) (x : α) :
    x ∈ isortLe le l ↔ x ∈ l :=
  List.Perm.mem_iff (isortLe_perm le l)

theorem reach_congr {E F : List (ℕ × ℕ)} (h : ∀ f, f ∈ E ↔ f ∈ F) {u v : ℕ} :
    Reach E u v ↔ Reach F u v :=
  ⟨reach_mono (fun e he => (h e).1 he), reach_mono (fun e he => (h e).2 he)⟩

/-! ## Claim C1: the tree invariant after canonicalisation -/

theorem mstOf_nodes (scal : V3) (G : SkelGraph) : (mstOf scal G).nodes = G.nodes := rfl

theorem mst_tree_invariant_aux (scal : V3) (G : SkelGraph)
    (hnd : G.nodes.Nodup) (hne : G.nodes ≠ [])
    (hcl : ∀ e ∈ G.edges, e.1 ∈ G.nodes ∧ e.2 ∈ G.nodes)
    (hconn : ∀ u ∈ G.nodes, ∀ v ∈ G.nodes, Reach G.edges u v) :
    (mstOf scal G).edges.length = G.nodes.length - 1
    ∧ (∀ u ∈ G.nodes, ∀ v ∈ G.nodes, Reach (mstOf scal G).edges u v) := by
  set S := sortEdgesByW scal G.pos G.edges with hS
  have hmem : ∀ f, f ∈ S ↔ f ∈ G.edges := by
    intro f
    rw [hS]
    exact mem_isortLe _ _ f
  have hendS : ∀ e ∈ S, e.1 ∈ G.nodes ∧ e.2 ∈ G.nodes :=
    fun e he => hcl e ((hmem e).1 he)
  obtain ⟨hKf, hSCf, _⟩ :=
    kruskal_fold_inv S (G.nodes.map (fun v => [v])) [] (kinv_init hnd) hendS
  obtain ⟨hpartf, hlenf, hconnf, _⟩ := hKf
  -- every pair of nodes ends in the same block
  have hall : ∀ u ∈ G.nodes, ∀ v ∈ G.nodes,
      SameComp (S.foldl spanStep (G.nodes.map (fun v => [v]), [])).1 u v := by
    intro u hu v hv
    have hR : Reach S u v := (reach_congr (fun f => (hmem f).symm)).1
      (hconn u hu v hv)
    induction hR with
    | refl =>
        obtain ⟨c, hc, hvc⟩ := hpartf.2.1 u hu
        exact ⟨c, hc, hvc, hvc⟩
    | tail hab hbc ihs =>
        rename_i b c
        have hbu : b ∈ G.nodes := by
          rcases hbc with hf | hf
          · exact (hendS _ hf).1
          · exact (hendS _ hf).2
        have h1 : SameComp (S.foldl spanStep (G.nodes.map (fun v => [v]), [])).1 u b :=
          ihs hbu
        have h2 : SameComp (S.foldl spanStep (G.nodes.map (fun v => [v]), [])).1 b c := by
          rcases hbc with hf | hf
          · exact hSCf (b, c) hf
          · exact sameComp_symm (hSCf (c, b) hf)
        exact sameComp_trans hpartf h1 h2
  have hlen1 : (S.foldl spanStep (G.nodes.map (fun v => [v]), [])).1.length = 1 :=
    partition_length_one hpartf hne hall
  constructor
  · show (S.foldl spanStep (G.nodes.map (fun v => [v]), [])).2.length
      = G.nodes.length - 1
    omega
  · show ∀ u ∈ G.nodes, ∀ v ∈ G.nodes,
      Reach (S.foldl spanStep (G.nodes.map (fun v => [v]), [])).2 u v
    intro u hu v hv
    obtain ⟨c, hc, huc, hvc⟩ := hall u hu v hv
    exact hconnf c hc u huc v hvc

/-- C1: for every (connected, well-formed) input graph, the
canonicalisation step — the reweighting and minimum-spanning-tree
extraction closing `create_sso_skeleton_fast` and `prune_stub_branches` —
produces a skeleton satisfying the tree invariant: the number of edges
equals the number of nodes minus one, and the graph has exactly one
connected component.  (Connectivity of the MST input is what the
preceding stitching stages establish, by assertion in
`from_sso_to_netkx_fast` and by fallback stitching in
`prune_stub_branches`.) -/
theorem C1_canonicalize_tree_invariant (scal : V3) (G : SkelGraph)
    (hnd : G.nodes.Nodup) (hne : G.nodes ≠ [])
    (hcl : ∀ e ∈ G.edges, e.1 ∈ G.nodes ∧ e.2 ∈ G.nodes)
    (hconn : ∀ u ∈ G.nodes, ∀ v ∈ G.nodes, reachB G.edges u v = true) :
    (mstOf scal G).edges.length = (mstOf scal G).nodes.length - 1
    ∧ (connectedComponents (mstOf scal G).nodes (mstOf scal G).edges).length
      = 1 := by
  have hconn2 : ∀ u ∈ G.nodes, ∀ v ∈ G.nodes, Reach G.edges u v :=
    fun u hu v hv => reachB_iff.1 (hconn u hu v hv)
  obtain ⟨h1, h2⟩ := mst_tree_invariant_aux scal G hnd hne hcl hconn2
  refine ⟨by rw [mstOf_nodes]; exact h1, ?_⟩
  rw [mstOf_nodes]
  cases hN : G.nodes with
  | nil => exact absurd hN hne
  | cons u0 rest =>
      rw [connectedComponents_single]
      · rfl
      · intro w hw
        refine reachList_complete (h2 u0 ?_ w ?_)
        · rw [hN]; exact List.mem_cons_self _ _
        · rw [hN]; exact List.mem_cons_of_mem _ hw

set_option maxRecDepth 8000 in
/-- Witness for C1 at a concrete connected graph (a 4-cycle with a
chord): the MST has 3 = 4 − 1 edges and a single component. -/
theorem C1_witness :
    (mstOf ((1 : ℤ), (1 : ℤ), (1 : ℤ)) witG1).edges.length
      = (mstOf ((1 : ℤ), (1 : ℤ), (1 : ℤ)) witG1).nodes.length - 1
    ∧ (connectedComponents (mstOf ((1 : ℤ), (1 : ℤ), (1 : ℤ)) witG1).nodes
        (mstOf ((1 : ℤ), (1 : ℤ), (1 : ℤ)) witG1).edges).length = 1 :=
  C1_canonicalize_tree_invariant ((1 : ℤ), (1 : ℤ), (1 : ℤ)) witG1
    (by decide) (by decide) (by decide) (by decide)

/-! ## Lemmas: sortedness of `isortN` and `dedupAdj` (`np.unique`) -/

theorem insertLe_sorted_nat (x : ℕ) :
    ∀ l : List ℕ, List.Pairwise (· ≤ ·) l →
      List.Pairwise (· ≤ ·) (insertLe (fun a b => decide (a ≤ b)) x l) := by
  intro l
  induction l with
  | nil => exact fun _ => List.pairwise_singleton _ x
  | cons y ys ih =>
      intro h
      unfold insertLe
      by_cases hxy : x ≤ y
      · rw [if_pos (by simpa using hxy)]
        rw [List.pairwise_cons]
        refine ⟨?_, h⟩
        intro b hb
        rcases List.mem_cons.1 hb with hb | hb
        · exact hb ▸ hxy
        · exact le_trans hxy ((List.pairwise_cons.1 h).1 b hb)
      · rw [if_neg (by simpa using hxy)]
        rw [List.pairwise_cons]
        obtain ⟨hy, hys⟩ := List.pairwise_cons.1 h
        refine ⟨?_, ih hys⟩
        intro b hb
        rw [List.Perm.mem_iff (insertLe_perm _ x ys)] at hb
        rcases List.mem_cons.1 hb with hb | hb
        · exact hb ▸ le_of_not_le hxy
        · exact hy b hb

theorem isortN_sorted (l : List ℕ) : List.Pairwise (· ≤ ·) (isortN l) := by
  induction l with
  | nil => exact List.Pairwise.nil
  | cons x xs ih =>
      unfold isortN isortLe at ih ⊢
      rw [List.foldr_cons]
      exact insertLe_sorted_nat x _ ih

theorem mem_dedupAdj {α : Type} [DecidableEq α] (x : α) :
    ∀ l : List α, x ∈ dedupAdj l ↔ x ∈ l := by
  intro l
  induction l with
  | nil => simp [dedupAdj]
  | cons a as ih =>
      cases as with
      | nil => simp [dedupAdj]
      | cons b bs =>
          unfold dedupAdj
          by_cases hab : a = b
          · rw [if_pos hab]
            subst hab
            rw [ih]
            simp
          · rw [if_neg hab]
            simp only [List.mem_cons] at ih ⊢
            rw [ih]

theorem dedupAdj_sorted_lt :
    ∀ l : List ℕ, List.Pairwise (· ≤ ·) l →
      List.Pairwise (· < ·) (dedupAdj l) := by
  intro l
  induction l with
  | nil => exact fun _ => List.Pairwise.nil
  | cons a as ih =>
      cases as with
      | nil => exact fun _ => List.pairwise_singleton _ a
      | cons b bs =>
          intro h
          obtain ⟨ha, hbs⟩ := List.pairwise_cons.1 h
          unfold dedupAdj
          by_cases hab : a = b
          · rw [if_pos hab]
            exact ih hbs
          · rw [if_neg hab]
            rw [List.pairwise_cons]
            refine ⟨?_, ih hbs⟩
            intro z hz
            rw [mem_dedupAdj] at hz
            have hazle : a ≤ z := ha z hz
            rcases List.mem_cons.1 hz with hzb | hzbs
            · exact lt_of_le_of_ne (hzb ▸ ha b (List.mem_cons_self b bs))
                (hzb ▸ hab)
            · have hbz : b ≤ z := (List.pairwise_cons.1 hbs).1 z hzbs
              exact lt_of_lt_of_le
                (lt_of_le_of_ne (ha b (List.mem_cons_self b bs)) hab) hbz

theorem mem_uniqueN (l : List ℕ) (x : ℕ) : x ∈ uniqueN l ↔ x ∈ l := by
  unfold uniqueN isortN
  rw [mem_dedupAdj, mem_isortLe]

theorem uniqueN_sorted (l : List ℕ) : List.Pairwise (· < ·) (uniqueN l) :=
  dedupAdj_sorted_lt _ (isortN_sorted l)

theorem sortedLT_eq_of_mem :
    ∀ (l m : List ℕ), List.Pairwise (· < ·) l → List.Pairwise (· < ·) m →
      (∀ x, x ∈ l ↔ x ∈ m) → l = m := by
  intro l
  induction l with
  | nil =>
      intro m _ _ hmm
      cases m with
      | nil => rfl
      | cons b m' =>
          exact absurd ((hmm b).2 (List.mem_cons_self b m')) (List.not_mem_nil b)
  | cons a l' ih =>
      intro m hl hm hmm
      cases m with
      | nil =>
          exact absurd ((hmm a).1 (List.mem_cons_self a l')) (List.not_mem_nil a)
      | cons b m' =>
          obtain ⟨hal', hl'⟩ := List.pairwise_cons.1 hl
          obtain ⟨hbm', hm'⟩ := List.pairwise_cons.1 hm
          have hab : a = b := by
            rcases List.mem_cons.1 ((hmm a).1 (List.mem_cons_self a l')) with
              h | h
            · exact h
            · have hba : b < a := hbm' a h
              rcases List.mem_cons.1 ((hmm b).2 (List.mem_cons_self b m')) with
                h2 | h2
              · exact h2.symm
              · exact absurd (lt_trans hba (hal' b h2)) (lt_irrefl b)
          subst hab
          have htail : ∀ x, x ∈ l' ↔ x ∈ m' := by
            intro x
            constructor
            · intro hx
              have hax : a < x := hal' x hx
              rcases List.mem_cons.1 ((hmm x).1 (List.mem_cons_of_mem a hx))
                with h | h
              · exact absurd (h ▸ hax) (lt_irrefl a)
              · exact h
            · intro hx
              have hax : a < x := hbm' x hx
              rcases List.mem_cons.1 ((hmm x).2 (List.mem_cons_of_mem a hx))
                with h | h
              · exact absurd (h ▸ hax) (lt_irrefl a)
              · exact h
          rw [ih m' hl' hm' htail]

theorem mem_endPts {E : List (ℕ × ℕ)} {x : ℕ} :
    x ∈ endPts E ↔ ∃ e ∈ E, x = e.1 ∨ x = e.2 := by
  unfold endPts
  rw [List.mem_flatMap]
  constructor
  · rintro ⟨e, he, hx⟩
    rcases List.mem_cons.1 hx with h | h
    · exact ⟨e, he, Or.inl h⟩
    · exact ⟨e, he, Or.inr (List.mem_singleton.1 h)⟩
  · rintro ⟨e, he, hx | hx⟩
    · exact ⟨e, he, by simp [hx]⟩
    · exact ⟨e, he, by simp [hx]⟩

/-! ## Lemmas: `idxOf` -/

theorem idxOf_lt_length {v : ℕ} : ∀ {l : List ℕ}, v ∈ l → idxOf v l < l.length := by
  intro l
  induction l with
  | nil => exact fun h => absurd h (List.not_mem_nil v)
  | cons a as ih =>
      intro hv
      unfold idxOf
      by_cases hav : a = v
      · rw [if_pos hav]
        simp
      · rw [if_neg hav]
        have : v ∈ as := by
          rcases List.mem_cons.1 hv with h | h
          · exact absurd h.symm hav
          · exact h
        simpa using ih this

theorem getD_idxOf {v : ℕ} : ∀ {l : List ℕ}, v ∈ l → l.getD (idxOf v l) 0 = v := by
  intro l
  induction l with
  | nil => exact fun h => absurd h (List.not_mem_nil v)
  | cons a as ih =>
      intro hv
      unfold idxOf
      by_cases hav : a = v
      · rw [if_pos hav]
        simpa using hav
      · rw [if_neg hav]
        have hmem : v ∈ as := by
          rcases List.mem_cons.1 hv with h | h
          · exact absurd h.symm hav
          · exact h
        simpa using ih hmem

theorem getD_map_lt {α β : Type} [Inhabited β] (f : α → β) (d0 : α) :
    ∀ (l : List α) (j : ℕ), j < l.length →
      (l.map f).getD j (f d0) = f (l.getD j d0) := by
  intro l
  induction l with
  | nil => intro j h; simp at h
  | cons a as ih =>
      intro j hj
      cases j with
      | zero => simp
      | succ j2 =>
          simp only [List.map_cons, List.getD_cons_succ]
          exact ih j2 (by simpa using hj)

theorem idxOf_getD_of_nodup :
    ∀ (l : List ℕ), l.Nodup → ∀ i, i < l.length → idxOf (l.getD i 0) l = i := by
  intro l
  induction l with
  | nil => intro _ i h; simp at h
  | cons a as ih =>
      intro hnd i hi
      cases i with
      | zero =>
          simp only [List.getD_cons_zero]
          unfold idxOf
          rw [if_pos rfl]
      | succ i2 =>
          have hi2 : i2 < as.length := by simpa using hi
          simp only [List.getD_cons_succ]
          unfold idxOf
          have hmem : as.getD i2 0 ∈ as := by
            rw [List.getD_eq_getElem as 0 hi2]
            exact List.getElem_mem hi2
          have hne : a ≠ as.getD i2 0 := by
            intro h
            exact (List.pairwise_cons.1 hnd).1 _ hmem h
          rw [if_neg hne]
          rw [ih (List.Nodup.of_cons hnd) i2 hi2]

/-! ## Claim C8: relabelling in `from_netkx_to_arr` -/

theorem uniqueN_endPts_eq_nodes {G : SkelGraph}
    (hsort : List.Pairwise (· < ·) G.nodes)
    (hcl : ∀ e ∈ G.edges, e.1 ∈ G.nodes ∧ e.2 ∈ G.nodes)
    (hcov : ∀ v ∈ G.nodes, ∃ e ∈ G.edges, v = e.1 ∨ v = e.2) :
    uniqueN (endPts G.edges) = G.nodes := by
  refine sortedLT_eq_of_mem _ _ (uniqueN_sorted _) hsort ?_
  intro x
  rw [mem_uniqueN, mem_endPts]
  constructor
  · rintro ⟨e, he, hx | hx⟩
    · exact hx ▸ (hcl e he).1
    · exact hx ▸ (hcl e he).2
  · exact hcov x

theorem flatMap_is_endPts (E : List (ℕ × ℕ)) :
    E.flatMap (fun e => [e.1, e.2]) = endPts E := rfl

/-- C8 counterexample: with node iteration order `[1, 0]`, the relabelled
edge `(0, 1)` points endpoint `0` at node-array position 0, which holds
node 1 — not at node 0's position (which is 1). -/
theorem C8_counterexample : ¬ EdgeIdxMatchesNodeOrder cexG8 := by
  intro h
  have h0 := (h 0 (by decide)).1
  revert h0
  decide

/-- C8 (amended): whenever the node iteration order is ascending and
every node occurs in some edge, the rebuild reassigns ids onto the dense
range `0..N-1` (the relabelling is onto the positions of the node array)
and every endpoint index in the returned edge array is the position of
that endpoint's node in the rebuilt node array. -/
theorem C8_amended_rebuild_indexing (G : SkelGraph)
    (hsort : List.Pairwise (· < ·) G.nodes)
    (hcl : ∀ e ∈ G.edges, e.1 ∈ G.nodes ∧ e.2 ∈ G.nodes)
    (hcov : ∀ v ∈ G.nodes, ∃ e ∈ G.edges, v = e.1 ∨ v = e.2) :
    EdgeIdxMatchesNodeOrder G
    ∧ (∀ v ∈ G.nodes, idxOf v G.nodes < G.nodes.length
        ∧ (from_netkx_to_arr G).1.getD (idxOf v G.nodes) (G.pos 0) = G.pos v)
    ∧ (∀ i, i < G.nodes.length → ∃ v ∈ G.nodes, idxOf v G.nodes = i) := by
  have hU : uniqueN (endPts G.edges) = G.nodes :=
    uniqueN_endPts_eq_nodes hsort hcl hcov
  have hnd : G.nodes.Nodup := by
    refine List.Pairwise.imp_of_mem ?_ hsort
    intro a b _ _ hab
    exact ne_of_lt hab
  refine ⟨?_, ?_, ?_⟩
  · intro j hj
    show ((G.edges.map (fun e =>
        (idxOf e.1 (uniqueN (endPts G.edges)),
         idxOf e.2 (uniqueN (endPts G.edges))))).getD j (0, 0)).1
          = idxOf (G.edges.getD j (0, 0)).1 G.nodes
      ∧ ((G.edges.map (fun e =>
        (idxOf e.1 (uniqueN (endPts G.edges)),
         idxOf e.2 (uniqueN (endPts G.edges))))).getD j (0, 0)).2
          = idxOf (G.edges.getD j (0, 0)).2 G.nodes
    rw [hU]
    have hmap : (G.edges.map (fun e =>
        (idxOf e.1 G.nodes, idxOf e.2 G.nodes))).getD j
          (idxOf (0 : ℕ) G.nodes, idxOf (0 : ℕ) G.nodes)
        = (idxOf (G.edges.getD j ((0 : ℕ), (0 : ℕ))).1 G.nodes,
           idxOf (G.edges.getD j ((0 : ℕ), (0 : ℕ))).2 G.nodes) := by
      have := getD_map_lt
        (fun e : ℕ × ℕ => (idxOf e.1 G.nodes, idxOf e.2 G.nodes))
        ((0 : ℕ), (0 : ℕ)) G.edges j hj
      exact this
    have hjlen : j < (G.edges.map (fun e =>
        (idxOf e.1 G.nodes, idxOf e.2 G.nodes))).length := by
      simpa using hj
    rw [List.getD_eq_getElem _ _ hjlen] at hmap ⊢
    rw [hmap]
    exact ⟨rfl, rfl⟩
  · intro v hv
    refine ⟨idxOf_lt_length hv, ?_⟩
    show (G.nodes.map G.pos).getD (idxOf v G.nodes) (G.pos 0) = G.pos v
    rw [getD_map_lt G.pos 0 G.nodes (idxOf v G.nodes) (idxOf_lt_length hv)]
    rw [getD_idxOf hv]
  · intro i hi
    refine ⟨G.nodes.getD i 0, ?_, idxOf_getD_of_nodup G.nodes hnd i hi⟩
    rw [List.getD_eq_getElem G.nodes 0 hi]
    exact List.getElem_mem hi

/-- Witness for C8 (amended) on a sorted three-node path graph. -/
theorem C8_witness :
    EdgeIdxMatchesNodeOrder witG8
    ∧ (∀ v ∈ witG8.nodes, idxOf v witG8.nodes < witG8.nodes.length
        ∧ (from_netkx_to_arr witG8).1.getD (idxOf v witG8.nodes)
            (witG8.pos 0) = witG8.pos v)
    ∧ (∀ i, i < witG8.nodes.length → ∃ v ∈ witG8.nodes, idxOf v witG8.nodes = i) :=
  C8_amended_rebuild_indexing witG8 (by decide) (by decide) (by decide)

/-! ## Claim C2: the radius estimator -/

theorem getD_set (arr : List ℚ) (j : ℕ) (x : ℚ) (i : ℕ) (d : ℚ) :
    (arr.set j x).getD i d
      = if i = j ∧ i < arr.length then x else arr.getD i d := by
  induction arr generalizing i j with
  | nil => simp
  | cons a as ih =>
      cases j with
      | zero =>
          cases i with
          | zero => simp
          | succ i2 => simp
      | succ j2 =>
          cases i with
          | zero => simp
          | succ i2 =>
              simp only [List.set_cons_succ, List.getD_cons_succ,
                List.length_cons]
              rw [ih j2 i2]
              by_cases h : i2 = j2 ∧ i2 < as.length
              · rw [if_pos h, if_pos ⟨by omega, by omega⟩]
              · rw [if_neg h, if_neg (by omega)]

theorem foldl_set_length (f : ℕ → ℚ) :
    ∀ (L : List ℕ) (arr : List ℚ),
      (L.foldl (fun a ii => a.set ii (f ii)) arr).length = arr.length := by
  intro L
  induction L with
  | nil => exact fun arr => rfl
  | cons j rest ih =>
      intro arr
      rw [List.foldl_cons, ih]
      exact List.length_set arr j (f j)

theorem foldl_set_getD (f : ℕ → ℚ) (d : ℚ) :
    ∀ (L : List ℕ) (arr : List ℚ) (i : ℕ),
      (L.foldl (fun a ii => a.set ii (f ii)) arr).getD i d
        = if i ∈ L ∧ i < arr.length then f i else arr.getD i d := by
  intro L
  induction L with
  | nil =>
      intro arr i
      simp
  | cons j rest ih =>
      intro arr i
      rw [List.foldl_cons, ih]
      rw [List.length_set]
      by_cases h1 : i ∈ rest ∧ i < arr.length
      · rw [if_pos h1, if_pos ⟨List.mem_cons_of_mem j h1.1, h1.2⟩]
      · rw [if_neg h1, getD_set]
        by_cases h2 : i = j ∧ i < arr.length
        · rw [if_pos h2, if_pos ⟨h2.1 ▸ List.mem_cons_self j rest, h2.2⟩, h2.1]
        · rw [if_neg h2, if_neg ?_]
          intro h3
          rcases List.mem_cons.1 h3.1 with h4 | h4
          · exact h2 ⟨h4, h3.2⟩
          · exact h1 ⟨h4, h3.2⟩

/-- C2 counterexample: with a single node whose ten nearest distances are
all 5 and `plump_factor = 1`, the source sets the diameter to
`5 * 2 / 10 = 1`, while the claim (`2 × median × plump_factor`) predicts
10. -/
theorem C2_counterexample :
    (radius_correction_found_vertices
        [[5, 5, 5, 5, 5, 5, 5, 5, 5, 5]] [0] 1).getD 0 0 = 1
    ∧ specRadiusDiameter [[5, 5, 5, 5, 5, 5, 5, 5, 5, 5]] 1 0 = 10
    ∧ (1 : ℚ) ≠ 10 := by
  have hmed : npMedian [5, 5, 5, 5, 5, 5, 5, 5, 5, 5] = 5 := by
    norm_num [npMedian, isortQ, isortLe, insertLe]
  refine ⟨?_, ?_, by norm_num⟩
  · norm_num [radius_correction_found_vertices, List.range_succ,
      List.range_zero, hmed]
  · norm_num [specRadiusDiameter, hmed]

/-- C2 (amended): for every node `i`, `radius_correction_found_vertices`
sets the diameter to the median of the node's `k` nearest-vertex
distances times 2, divided by 10, multiplied by the caller-supplied
`plump_factor` — i.e. one fifth of the median times the plump factor,
not twice the median. -/
theorem C2_amended_radius_from_median (dists : List (List ℚ))
    (diameters : List ℚ) (plump : ℚ)
    (hlen : diameters.length = dists.length) :
    ∀ i, i < dists.length →
      (radius_correction_found_vertices dists diameters plump).getD i 0
        = npMedian (dists.getD i []) * 2 / 10 * plump := by
  intro i hi
  unfold radius_correction_found_vertices
  have hd1len : ((List.range dists.length).foldl
      (fun arr ii => arr.set ii (npMedian (dists.getD ii []) * 2 / 10))
      diameters).length = diameters.length :=
    foldl_set_length _ _ diameters
  have hrng : i < ((List.range dists.length).foldl
      (fun arr ii => arr.set ii (npMedian (dists.getD ii []) * 2 / 10))
      diameters).length := by omega
  have hmaplen : i < (((List.range dists.length).foldl
      (fun arr ii => arr.set ii (npMedian (dists.getD ii []) * 2 / 10))
      diameters).map (fun d => d * plump)).length := by
    simpa using hrng
  rw [List.getD_eq_getElem _ _ hmaplen]
  rw [List.getElem_map]
  rw [← List.getD_eq_getElem _ 0 hrng]
  rw [foldl_set_getD]
  rw [if_pos ⟨List.mem_range.2 hi, by omega⟩]

/-- Witness for C2 (amended) at a concrete input. -/
theorem C2_witness :
    (radius_correction_found_vertices
        [[5, 5, 5, 5, 5, 5, 5, 5, 5, 5]] [0] 3).getD 0 0
      = npMedian [5, 5, 5, 5, 5, 5, 5, 5, 5, 5] * 2 / 10 * 3 :=
  C2_amended_radius_from_median [[5, 5, 5, 5, 5, 5, 5, 5, 5, 5]] [0] 3
    (by decide) 0 (by decide)

/-! ## Lemmas: `minZ` / `argminZ` -/

theorem foldl_min_le (xs : List ℤ) :
    ∀ m : ℤ, (xs.foldl (fun m y => if y < m then y else m) m) ≤ m
      ∧ ∀ x ∈ xs, (xs.foldl (fun m y => if y < m then y else m) m) ≤ x := by
  induction xs with
  | nil => exact fun m => ⟨le_refl m, by simp⟩
  | cons x xs ih =>
      intro m
      rw [List.foldl_cons]
      by_cases hxm : x < m
      · rw [if_pos hxm]
        obtain ⟨h1, h2⟩ := ih x
        refine ⟨le_trans h1 (le_of_lt hxm), ?_⟩
        intro z hz
        rcases List.mem_cons.1 hz with h | h
        · exact h ▸ h1
        · exact h2 z h
      · rw [if_neg hxm]
        obtain ⟨h1, h2⟩ := ih m
        refine ⟨h1, ?_⟩
        intro z hz
        rcases List.mem_cons.1 hz with h | h
        · exact h ▸ le_trans h1 (le_of_not_lt hxm)
        · exact h2 z h

theorem foldl_min_mem (xs : List ℤ) :
    ∀ m : ℤ, (xs.foldl (fun m y => if y < m then y else m) m) ∈ m :: xs := by
  induction xs with
  | nil => exact fun m => List.mem_singleton_self m
  | cons x xs ih =>
      intro m
      rw [List.foldl_cons]
      by_cases hxm : x < m
      · rw [if_pos hxm]
        rcases List.mem_cons.1 (ih x) with h | h
        · rw [h]
          exact List.mem_cons_of_mem m (List.mem_cons_self x xs)
        · exact List.mem_cons_of_mem m (List.mem_cons_of_mem x h)
      · rw [if_neg hxm]
        rcases List.mem_cons.1 (ih m) with h | h
        · rw [h]
          exact List.mem_cons_self m (x :: xs)
        · exact List.mem_cons_of_mem m (List.mem_cons_of_mem x h)

theorem minZ_le {l : List ℤ} {x : ℤ} (hx : x ∈ l) : minZ l ≤ x := by
  cases l with
  | nil => exact absurd hx (List.not_mem_nil x)
  | cons a as =>
      rcases List.mem_cons.1 hx with h | h
      · exact h ▸ (foldl_min_le as a).1
      · exact (foldl_min_le as a).2 x h

theorem minZ_mem {l : List ℤ} (h : l ≠ []) : minZ l ∈ l := by
  cases l with
  | nil => exact absurd rfl h
  | cons a as => exact foldl_min_mem as a

theorem argminAux_spec (l : List ℤ) :
    ∀ (ys : List ℤ) (bv : ℤ) (bi ci : ℕ),
      bi < l.length → ci + ys.length = l.length → l.getD bi 0 = bv →
      (∀ j, j < ys.length → l.getD (ci + j) 0 = ys.getD j 0) →
      argminAux ys bv bi ci < l.length
      ∧ l.getD (argminAux ys bv bi ci) 0
        = ys.foldl (fun m y => if y < m then y else m) bv := by
  intro ys
  induction ys with
  | nil =>
      intro bv bi ci hbi _ hval _
      exact ⟨hbi, hval⟩
  | cons y ys2 ih =>
      intro bv bi ci hbi hci hval hacc
      have hciy : l.getD ci 0 = y := by
        have := hacc 0 (by simp)
        simpa using this
      have hcilt : ci < l.length := by
        simp only [List.length_cons] at hci
        omega
      have hshift : ∀ j, j < ys2.length → l.getD (ci + 1 + j) 0 = ys2.getD j 0 := by
        intro j hj
        have := hacc (j + 1) (by simpa using Nat.succ_lt_succ hj)
        have harith : ci + (j + 1) = ci + 1 + j := by omega
        rw [harith] at this
        simpa using this
      unfold argminAux
      by_cases hlt : y < bv
      · rw [if_pos hlt]
        obtain ⟨h1, h2⟩ := ih y ci (ci + 1) hcilt (by
          simp only [List.length_cons] at hci
          omega) hciy hshift
        refine ⟨h1, ?_⟩
        rw [h2, List.foldl_cons, if_pos hlt]
      · rw [if_neg hlt]
        obtain ⟨h1, h2⟩ := ih bv bi (ci + 1) hbi (by
          simp only [List.length_cons] at hci
          omega) hval hshift
        refine ⟨h1, ?_⟩
        rw [h2, List.foldl_cons, if_neg hlt]

theorem argminZ_spec {l : List ℤ} (h : l ≠ []) :
    argminZ l < l.length ∧ l.getD (argminZ l) 0 = minZ l := by
  cases l with
  | nil => exact absurd rfl h
  | cons a as =>
      have := argminAux_spec (a :: as) as a 0 1 (by simp)
        (by simp [Nat.add_comm]) (by simp)
        (by intro j hj; rw [Nat.add_comm 1 j]; simp)
      exact this

/-! ## Claim C4: the stitching bridge condition -/

theorem getD_map_irrel {α β : Type} (f : α → β) (d : β) (d0 : α)
    (l : List α) (j : ℕ) (h : j < l.length) :
    (l.map f).getD j d = f (l.getD j d0) := by
  rw [List.getD_eq_getElem (l.map f) d (by simpa using h), List.getElem_map,
    List.getD_eq_getElem l d0 h]

theorem distsOf_as_map (scal : V3) (pos : ℕ → V3) (ix1s ix2s : List ℕ) :
    distsOf scal pos ix1s ix2s
      = ix2s.map (fun i2 => minZ ((scaledOf scal pos ix1s).map
          (fun a => sqnorm3 (sub3 a (mul3 (pos i2) scal))))) := by
  unfold distsOf scaledOf nnOf
  rw [List.map_map]
  rfl

theorem crossSqDists_as_map (scal : V3) (pos : ℕ → V3) (ix1s ix2s : List ℕ) :
    crossSqDists scal pos ix1s ix2s
      = ix2s.flatMap (fun i2 => (scaledOf scal pos ix1s).map
          (fun a => sqnorm3 (sub3 a (mul3 (pos i2) scal)))) := by
  unfold crossSqDists scaledOf
  simp only [List.map_map]
  rfl

theorem bridgeCheck_eq_min (scal : V3) (pos : ℕ → V3) (ix1s ix2s : List ℕ)
    (h1 : ix1s ≠ []) (h2 : ix2s ≠ []) :
    bridgeCheck scal pos ix1s ix2s = minZ (distsOf scal pos ix1s ix2s) := by
  have hd : distsOf scal pos ix1s ix2s
      = ix2s.map (fun i2 => minZ ((scaledOf scal pos ix1s).map
          (fun a => sqnorm3 (sub3 a (mul3 (pos i2) scal))))) :=
    distsOf_as_map scal pos ix1s ix2s
  have hdne : distsOf scal pos ix1s ix2s ≠ [] := by
    rw [hd]
    simpa using h2
  obtain ⟨hjlt, hjval⟩ := argminZ_spec hdne
  set j := argminZ (distsOf scal pos ix1s ix2s) with hj
  have hjlt2 : j < ix2s.length := by
    rw [hd] at hjlt
    simpa using hjlt
  set i2 := ix2s.getD j 0 with hi2
  have hdj : (distsOf scal pos ix1s ix2s).getD j 0
      = minZ ((scaledOf scal pos ix1s).map
          (fun a => sqnorm3 (sub3 a (mul3 (pos i2) scal)))) := by
    rw [hd, getD_map_irrel _ 0 0 ix2s j hjlt2]
  set inner := (scaledOf scal pos ix1s).map
    (fun a => sqnorm3 (sub3 a (mul3 (pos i2) scal))) with hinner
  have hinne : inner ≠ [] := by
    rw [hinner]
    unfold scaledOf
    simpa using h1
  obtain ⟨hklt, hkval⟩ := argminZ_spec hinne
  have hlen_inner : inner.length = ix1s.length := by
    rw [hinner]
    unfold scaledOf
    simp
  have hklt2 : argminZ inner < ix1s.length := by
    rw [← hlen_inner]
    exact hklt
  have hnn : (nnIdxOf scal pos ix1s ix2s).getD j 0 = argminZ inner := by
    unfold nnIdxOf
    have hjlt3 : j < (scaledOf scal pos ix2s).length := by
      unfold scaledOf
      simpa using hjlt2
    rw [getD_map_irrel _ 0 ((0 : ℤ), (0 : ℤ), (0 : ℤ)) _ j hjlt3]
    have hb : (scaledOf scal pos ix2s).getD j ((0 : ℤ), (0 : ℤ), (0 : ℤ))
        = mul3 (pos i2) scal := by
      unfold scaledOf
      rw [getD_map_irrel _ ((0 : ℤ), (0 : ℤ), (0 : ℤ)) 0 ix2s j hjlt2]
    rw [hb]
    rfl
  have hmapeq : inner = ix1s.map (fun i1 => sqnorm3 (sub3 (mul3 (pos i1) scal)
      (mul3 (pos i2) scal))) := by
    rw [hinner]
    unfold scaledOf
    rw [List.map_map]
    rfl
  have hcheck : bridgeCheck scal pos ix1s ix2s
      = inner.getD (argminZ inner) 0 := by
    unfold bridgeCheck bridgePair
    dsimp only
    rw [← hj, ← hi2, hnn]
    nth_rewrite 2 [hmapeq]
    rw [getD_map_irrel _ 0 0 ix1s _ hklt2]
  rw [hcheck, hkval, ← hdj, hjval]

theorem minZ_distsOf_eq_cross (scal : V3) (pos : ℕ → V3)
    (ix1s ix2s : List ℕ) (h1 : ix1s ≠ []) (h2 : ix2s ≠ []) :
    minZ (distsOf scal pos ix1s ix2s)
      = minZ (crossSqDists scal pos ix1s ix2s) := by
  have hinne : ∀ i2 : ℕ, (scaledOf scal pos ix1s).map
      (fun a => sqnorm3 (sub3 a (mul3 (pos i2) scal))) ≠ [] := by
    intro i2
    unfold scaledOf
    simpa using h1
  rw [distsOf_as_map, crossSqDists_as_map]
  set F := fun i2 : ℕ => (scaledOf scal pos ix1s).map
    (fun a => sqnorm3 (sub3 a (mul3 (pos i2) scal))) with hF
  have hdne : ix2s.map (fun i2 => minZ (F i2)) ≠ [] := by
    simpa using h2
  have hcne : ix2s.flatMap F ≠ [] := by
    obtain ⟨i2, hi2⟩ := List.exists_mem_of_ne_nil ix2s h2
    obtain ⟨z, hz⟩ := List.exists_mem_of_ne_nil _ (hinne i2)
    intro habs
    have hzz : z ∈ ix2s.flatMap F := List.mem_flatMap.2 ⟨i2, hi2, hz⟩
    rw [habs] at hzz
    exact absurd hzz (List.not_mem_nil z)
  refine le_antisymm ?_ ?_
  · obtain ⟨i2, hi2, hmem⟩ := List.mem_flatMap.1 (minZ_mem hcne)
    refine le_trans (minZ_le (List.mem_map.2 ⟨i2, hi2, rfl⟩)) ?_
    exact minZ_le hmem
  · obtain ⟨i2, hi2, hval⟩ := List.mem_map.1 (minZ_mem hdne)
    rw [← hval]
    exact minZ_le (List.mem_flatMap.2 ⟨i2, hi2, minZ_mem (hinne i2)⟩)

/-- C4 counterexample: two non-empty fragments whose closest pair is
2000 nm apart (beyond the 1500 nm bound).  The source skips the bridge,
while the claim's condition (skip only when the length also exceeds the
minimum observed query distance — an equality here, never an excess)
says it must be added. -/
theorem C4_counterexample :
    stitchBridge ((1 : ℤ), 1, 1) cexPos4 [0] [1] 1500 = none
    ∧ specBridgeSkip ((1 : ℤ), 1, 1) cexPos4 [0] [1] 1500 = false := by
  decide

/-- C4 (amended): for every adjacency edge between fragments with
non-empty node sets, the recomputed bridge length always equals the
minimum query distance (so the claim's first condition never holds
strictly in exact arithmetic), and the bridge over the closest pair is
skipped exactly when its squared physical length exceeds the squared
maximum edge length bound; whenever it is added, the added edge realises
the minimum cross-fragment distance. -/
theorem C4_amended_bridge_iff_maxlen (scal : V3) (pos : ℕ → V3)
    (ix1s ix2s : List ℕ) (maxLen : ℤ)
    (h1 : ix1s ≠ []) (h2 : ix2s ≠ []) :
    (stitchBridge scal pos ix1s ix2s maxLen = none
      ↔ maxLen * maxLen < minZ (crossSqDists scal pos ix1s ix2s))
    ∧ (∀ e, stitchBridge scal pos ix1s ix2s maxLen = some e →
        sqnorm3 (sub3 (mul3 (pos e.1) scal) (mul3 (pos e.2) scal))
          = minZ (crossSqDists scal pos ix1s ix2s)) := by
  have hck := bridgeCheck_eq_min scal pos ix1s ix2s h1 h2
  have hcross := minZ_distsOf_eq_cross scal pos ix1s ix2s h1 h2
  have hne : ¬(ix1s = [] ∨ ix2s = []) := by
    rintro (h | h)
    · exact h1 h
    · exact h2 h
  unfold stitchBridge
  rw [if_neg hne]
  by_cases hc : bridgeCheck scal pos ix1s ix2s > maxLen * maxLen
  · rw [if_pos (Or.inr hc)]
    refine ⟨⟨fun _ => ?_, fun _ => rfl⟩, fun e he => absurd he (by simp)⟩
    rw [← hcross, ← hck]
    exact hc
  · have hnc : ¬(minZ (distsOf scal pos ix1s ix2s)
        < bridgeCheck scal pos ix1s ix2s
        ∨ bridgeCheck scal pos ix1s ix2s > maxLen * maxLen) := by
      rintro (hlt | hgt)
      · rw [hck] at hlt
        exact lt_irrefl _ hlt
      · exact hc hgt
    rw [if_neg hnc]
    constructor
    · constructor
      · intro habs
        exact absurd habs (by simp)
      · intro hlt
        rw [← hcross, ← hck] at hlt
        exact absurd hlt hc
    · intro e he
      have hpe : e = bridgePair scal pos ix1s ix2s := (Option.some_inj.1 he).symm
      rw [hpe]
      show bridgeCheck scal pos ix1s ix2s
        = minZ (crossSqDists scal pos ix1s ix2s)
      rw [hck, hcross]

/-- Witness for C4 (amended) at the concrete two-fragment input. -/
theorem C4_witness :
    (stitchBridge ((1 : ℤ), 1, 1) cexPos4 [0] [1] 1500 = none
      ↔ 1500 * 1500 < minZ (crossSqDists ((1 : ℤ), 1, 1) cexPos4 [0] [1]))
    ∧ (∀ e, stitchBridge ((1 : ℤ), 1, 1) cexPos4 [0] [1] 1500 = some e →
        sqnorm3 (sub3 (mul3 (cexPos4 e.1) ((1 : ℤ), 1, 1))
            (mul3 (cexPos4 e.2) ((1 : ℤ), 1, 1)))
          = minZ (crossSqDists ((1 : ℤ), 1, 1) cexPos4 [0] [1])) :=
  C4_amended_bridge_iff_maxlen ((1 : ℤ), 1, 1) cexPos4 [0] [1] 1500
    (by decide) (by decide)

/-! ## Claim C5: compartment majority vote -/

theorem isortN_eq_of_perm {l l' : List ℕ} (h : List.Perm l l') :
    isortN l = isortN l' := by
  have hp : List.Perm (isortN l) (isortN l') :=
    List.Perm.trans (isortLe_perm _ l)
      (List.Perm.trans h (List.Perm.symm (isortLe_perm _ l')))
  have h1 : List.Sorted (fun a b : ℕ => a ≤ b) (isortN l) := isortN_sorted l
  have h2 : List.Sorted (fun a b : ℕ => a ≤ b) (isortN l') := isortN_sorted l'
  exact List.eq_of_perm_of_sorted hp h1 h2

theorem majOfN_perm (d : ℕ) {l l' : List ℕ} (h : List.Perm l l') :
    majOf d l = majOf d l' := by
  unfold majOf
  have hs : isortLe (fun a b => decide (a ≤ b)) l
      = isortLe (fun a b => decide (a ≤ b)) l' := isortN_eq_of_perm h
  rw [hs]
  have hcnt : ∀ x : ℕ, l.count x = l'.count x :=
    fun x => List.Perm.count_eq h x
  have hfun : (fun (best x : ℕ) =>
      if l.count best < l.count x then x else best)
      = fun best x => if l'.count best < l'.count x then x else best := by
    funext best x
    rw [hcnt, hcnt]
  rw [hfun]

theorem biasedMajority_perm {l l' : List ℕ} (h : List.Perm l l') :
    biasedMajority l = biasedMajority l' := by
  unfold biasedMajority
  rw [majOfN_perm 0 h, List.Perm.count_eq h, List.Perm.length_eq h]

theorem foldl_update_eq (m : ℕ) :
    ∀ (cc : List ℕ) (f : ℕ → ℕ) (v : ℕ),
      (cc.foldl (fun f2 w => Function.update f2 w m) f) v
        = if v ∈ cc then m else f v := by
  intro cc
  induction cc with
  | nil => intro f v; simp
  | cons w rest ih =>
      intro f v
      rw [List.foldl_cons, ih]
      by_cases hv : v ∈ rest
      · rw [if_pos hv, if_pos (List.mem_cons_of_mem w hv)]
      · rw [if_neg hv]
        rw [Function.update_apply]
        by_cases hvw : v = w
        · rw [if_pos hvw, if_pos (hvw ▸ List.mem_cons_self w rest)]
        · rw [if_neg hvw, if_neg (by
            intro h
            rcases List.mem_cons.1 h with h2 | h2
            · exact hvw h2
            · exact hv h2)]

theorem foldl_assign_eq (g : List ℕ → ℕ) :
    ∀ (ccs : List (List ℕ)) (f : ℕ → ℕ) (v : ℕ) (m : ℕ),
      (∀ cc ∈ ccs, v ∈ cc → g cc = m) →
      (ccs.foldl
        (fun f cc => cc.foldl (fun f2 w => Function.update f2 w (g cc)) f)
        f) v
        = if ∃ cc ∈ ccs, v ∈ cc then m else f v := by
  intro ccs
  induction ccs with
  | nil =>
      intro f v m _
      simp
  | cons cc rest ih =>
      intro f v m hagree
      rw [List.foldl_cons]
      rw [ih _ v m (fun c hc hvc =>
        hagree c (List.mem_cons_of_mem cc hc) hvc)]
      rw [foldl_update_eq]
      by_cases h1 : ∃ c ∈ rest, v ∈ c
      · rw [if_pos h1, if_pos (by
          obtain ⟨c, hc, hvc⟩ := h1
          exact ⟨c, List.mem_cons_of_mem cc hc, hvc⟩)]
      · rw [if_neg h1]
        by_cases h2 : v ∈ cc
        · rw [if_pos h2,
            if_pos ⟨cc, List.mem_cons_self cc rest, h2⟩]
          exact hagree cc (List.mem_cons_self cc rest) h2
        · rw [if_neg h2, if_neg (by
            rintro ⟨c, hc, hvc⟩
            rcases List.mem_cons.1 hc with h3 | h3
            · exact h2 (h3 ▸ hvc)
            · exact h1 ⟨c, h3, hvc⟩)]

theorem reachList_set_eq {E : List (ℕ × ℕ)} {u v : ℕ}
    (h : v ∈ reachList E u) :
    ∀ x, x ∈ reachList E u ↔ x ∈ reachList E v := by
  have huv : Reach E u v := reachList_sound h
  intro x
  rw [mem_reachList_iff, mem_reachList_iff]
  exact ⟨fun hx => Relation.ReflTransGen.trans (reach_symm huv) hx,
    fun hx => Relation.ReflTransGen.trans huv hx⟩

theorem reachList_perm {E : List (ℕ × ℕ)} {u v : ℕ}
    (h : v ∈ reachList E u) :
    List.Perm (reachList E u) (reachList E v) := by
  rw [List.perm_ext_iff_of_nodup (reachList_nodup E u) (reachList_nodup E v)]
  exact reachList_set_eq h

theorem ccFold_comps_mem (E : List (ℕ × ℕ)) (S : List ℕ) :
    ∀ (vs : List ℕ) (acc : List (List ℕ) × List ℕ),
      (∀ v ∈ vs, v ∈ S) →
      (∀ c ∈ acc.1, ∃ w ∈ S, c = reachList E w) →
      ∀ c ∈ (vs.foldl (ccStep E) acc).1, ∃ w ∈ S, c = reachList E w := by
  intro vs
  induction vs with
  | nil => exact fun acc _ h => h
  | cons v rest ih =>
      intro acc hvs h
      rw [List.foldl_cons]
      by_cases hv : v ∈ acc.2
      · have hstep : ccStep E acc v = acc := by simp [ccStep, hv]
        rw [hstep]
        exact ih acc (fun w hw => hvs w (List.mem_cons_of_mem v hw)) h
      · have hstep : ccStep E acc v
            = (acc.1 ++ [reachList E v], acc.2 ++ reachList E v) := by
          simp [ccStep, hv]
        rw [hstep]
        refine ih _ (fun w hw => hvs w (List.mem_cons_of_mem v hw)) ?_
        intro c hc
        rcases List.mem_append.1 hc with h2 | h2
        · exact h c h2
        · exact ⟨v, hvs v (List.mem_cons_self v rest),
            List.mem_singleton.1 h2⟩

theorem connectedComponents_started {E : List (ℕ × ℕ)} {vs : List ℕ}
    {c : List ℕ} (hc : c ∈ connectedComponents vs E) :
    ∃ w ∈ vs, c = reachList E w := by
  unfold connectedComponents at hc
  exact ccFold_comps_mem E vs vs ([], []) (fun v hv => hv)
    (by intro c2 hc2; simp at hc2) c hc

/-- C5 (amended): after soma (label 2) removal, every node of each
remaining connected component is reassigned to the component's majority
label, except that when axon (label 1) wins with vote share below 0.66
the node is assigned dendrite (label 0) — the fixed class 0, not the
runner-up; soma nodes keep their label. -/
theorem C5_amended_component_majority (nodes : List ℕ)
    (E : List (ℕ × ℕ)) (ax : ℕ → ℕ) (v : ℕ) (hv : v ∈ nodes) :
    (ax v = 2 → majority_vote_compartments nodes E ax v = 2)
    ∧ (ax v ≠ 2 → majority_vote_compartments nodes E ax v
        = biasedMajority
            ((reachList (E.filter (fun e => decide (ax e.1 ≠ 2 ∧ ax e.2 ≠ 2)))
              v).map ax)) := by
  unfold majority_vote_compartments
  set sfE := E.filter (fun e => decide (ax e.1 ≠ 2 ∧ ax e.2 ≠ 2)) with hsfE
  set sfN := nodes.filter (fun w => decide (ax w ≠ 2)) with hsfN
  set ccs := connectedComponents sfN sfE with hccs
  have hsfE_no2 : ∀ e ∈ sfE, ax e.1 ≠ 2 ∧ ax e.2 ≠ 2 := by
    intro e he
    rw [hsfE] at he
    have := List.of_mem_filter he
    simpa using this
  constructor
  · intro hax2
    have hnone : ∀ cc ∈ ccs, v ∉ cc := by
      intro cc hcc hvcc
      rw [hccs] at hcc
      obtain ⟨w, hwN, hwc⟩ := connectedComponents_started hcc
      rw [hwc] at hvcc
      rcases mem_reachList_elim hvcc with h | h
      · have hw2 : ax w ≠ 2 := by
          rw [hsfN] at hwN
          have := List.of_mem_filter hwN
          simpa using this
        rw [h] at hax2
        exact hw2 hax2
      · rw [mem_endPts] at h
        obtain ⟨e, he, h3 | h3⟩ := h
        · exact (hsfE_no2 e he).1 (h3 ▸ hax2)
        · exact (hsfE_no2 e he).2 (h3 ▸ hax2)
    rw [foldl_assign_eq _ ccs ax v 0 (fun cc hcc hvcc =>
      absurd hvcc (hnone cc hcc))]
    rw [if_neg (by
      rintro ⟨cc, hcc, hvcc⟩
      exact hnone cc hcc hvcc)]
    exact hax2
  · intro haxne
    have hvN : v ∈ sfN := by
      rw [hsfN]
      exact List.mem_filter.2 ⟨hv, by simpa using haxne⟩
    have hcov : ∃ c ∈ ccs, v ∈ c := by
      rw [hccs]
      exact connectedComponents_covers hvN
    have hagree : ∀ cc ∈ ccs, v ∈ cc →
        biasedMajority (cc.map ax)
          = biasedMajority ((reachList sfE v).map ax) := by
      intro cc hcc hvcc
      rw [hccs] at hcc
      obtain ⟨u, hu⟩ := connectedComponents_are_reach hcc
      rw [hu] at hvcc
      rw [hu]
      exact biasedMajority_perm (List.Perm.map ax (reachList_perm hvcc))
    rw [foldl_assign_eq _ ccs ax v
      (biasedMajority ((reachList sfE v).map ax)) hagree]
    rw [if_pos hcov]

set_option maxRecDepth 8000 in
/-- C5 counterexample: axoness labels [1,1,1,3,3] on a 5-node chain with
no soma node.  Axon (1) wins the component vote with share 3/5 < 0.66,
so the source assigns the hardcoded class 0 (dendrite) to node 0, while
the claim's runner-up rule would assign class 3. -/
theorem C5_counterexample :
    majority_vote_compartments [0, 1, 2, 3, 4] cexE5 cexAx5 0 = 0
    ∧ specCompartmentValue [0, 1, 2, 3, 4] cexE5 cexAx5 0 = 3 := by
  have hccs : connectedComponents
      (([0, 1, 2, 3, 4] : List ℕ).filter (fun v => decide (cexAx5 v ≠ 2)))
      (cexE5.filter (fun e => decide (cexAx5 e.1 ≠ 2 ∧ cexAx5 e.2 ≠ 2)))
      = [[0, 1, 2, 3, 4]] := by decide
  have hmap : (([0, 1, 2, 3, 4] : List ℕ).map cexAx5) = [1, 1, 1, 3, 3] := by
    decide
  have hm : majOf 0 [1, 1, 1, 3, 3] = 1 := by decide
  have hc : List.count 1 [1, 1, 1, 3, 3] = 3 := by decide
  have hl : ([1, 1, 1, 3, 3] : List ℕ).length = 5 := by decide
  constructor
  · simp only [majority_vote_compartments]
    rw [hccs, List.foldl_cons, List.foldl_nil, foldl_update_eq,
      if_pos (by decide : (0 : ℕ) ∈ [0, 1, 2, 3, 4]), hmap]
    simp only [biasedMajority, hm, hc, hl]
    rw [if_pos (by norm_num)]
  · simp only [specCompartmentValue]
    rw [if_neg (by decide : ¬ cexAx5 0 = 2)]
    have hre : reachList
        (cexE5.filter (fun e => decide (cexAx5 e.1 ≠ 2 ∧ cexAx5 e.2 ≠ 2))) 0
        = [0, 1, 2, 3, 4] := by decide
    rw [hre, hmap]
    simp only [specCompartmentAssign, hm, hc, hl]
    rw [if_pos (by norm_num)]
    decide

set_option maxRecDepth 8000 in
/-- C5 witness: the amended theorem applied to the counterexample graph
at node 0, whose label is not soma. -/
theorem C5_witness :
    (0 : ℕ) ∈ [0, 1, 2, 3, 4]
    ∧ ((cexAx5 0 = 2 →
          majority_vote_compartments [0, 1, 2, 3, 4] cexE5 cexAx5 0 = 2)
      ∧ (cexAx5 0 ≠ 2 →
          majority_vote_compartments [0, 1, 2, 3, 4] cexE5 cexAx5 0
            = biasedMajority
                ((reachList
                  (cexE5.filter
                    (fun e => decide (cexAx5 e.1 ≠ 2 ∧ cexAx5 e.2 ≠ 2)))
                  0).map cexAx5))) :=
  ⟨by decide,
    C5_amended_component_majority [0, 1, 2, 3, 4] cexE5 cexAx5 0 (by decide)⟩

/-- C9: a property key absent from the skeleton dictionary makes the
window aggregator fail immediately with an error; no skeleton update is
produced. -/
theorem C9_missing_key_error (n : ℕ) (W : List ((ℕ × ℕ) × ℚ))
    (sk : List (String × List ℚ)) (prop_key : String) (max_dist : ℤ)
    (h : lookupProp sk prop_key = none) :
    majorityvote_skeleton_property n W sk prop_key max_dist
      = Except.error ("property does not exist in skeleton") := by
  unfold majorityvote_skeleton_property
  rw [h]

/-- C9 witness: the empty skeleton dictionary has no key, so the call
errors. -/
theorem C9_witness :
    lookupProp [] "axoness" = none
    ∧ majorityvote_skeleton_property 3 [] [] "axoness" 100
        = Except.error ("property does not exist in skeleton") :=
  ⟨rfl, C9_missing_key_error 3 [] [] "axoness" 100 rfl⟩

theorem lookupProp_setProp_self (k : String) (v : List ℚ) :
    ∀ sk : List (String × List ℚ), lookupProp (setProp sk k v) k = some v := by
  intro sk
  induction sk with
  | nil => simp [setProp, lookupProp]
  | cons p ps ih =>
      by_cases h : p.1 = k
      · simp [setProp, lookupProp, h]
      · simp [setProp, lookupProp, h, ih]

theorem lookupProp_setProp_ne (k k2 : String) (v : List ℚ) (hne : k ≠ k2) :
    ∀ sk : List (String × List ℚ),
      lookupProp (setProp sk k2 v) k = lookupProp sk k := by
  have hk2k : ¬ k2 = k := fun h2 => hne h2.symm
  intro sk
  induction sk with
  | nil => simp [setProp, lookupProp, hk2k]
  | cons p ps ih =>
      by_cases h : p.1 = k2
      · have hpk : ¬ p.1 = k := by rw [h]; exact hk2k
        simp [setProp, lookupProp, h, hpk, hk2k]
      · by_cases h2 : p.1 = k
        · simp [setProp, lookupProp, h, h2, hne]
        · simp [setProp, lookupProp, h, h2, ih]

theorem derived_key_ne (prop_key : String) (max_dist : ℤ) :
    prop_key ≠ prop_key ++ "_avg" ++ toString max_dist := by
  intro h
  have hlen := congrArg String.length h
  rw [String.length_append, String.length_append] at hlen
  have h4 : ("_avg" : String).length = 4 := rfl
  rw [h4] at hlen
  omega

/-- C7: the window aggregator is a read-then-batch-write transform: on a
present key it succeeds, the original array under `prop_key` is unchanged
in the result, every other key except the derived one is unchanged, and
the derived key `prop_key ++ "_avg" ++ max_dist` receives the batch of
smoothed values, each computed from the unmodified original array. -/
theorem C7_read_then_batch_write (n : ℕ) (W : List ((ℕ × ℕ) × ℚ))
    (sk : List (String × List ℚ)) (prop_key : String) (max_dist : ℤ)
    (arr : List ℚ) (h : lookupProp sk prop_key = some arr) :
    ∃ out, majorityvote_skeleton_property n W sk prop_key max_dist
        = Except.ok out
      ∧ lookupProp out prop_key = some arr
      ∧ (∀ k, k ≠ prop_key ++ "_avg" ++ toString max_dist →
          lookupProp out k = lookupProp sk k)
      ∧ lookupProp out (prop_key ++ "_avg" ++ toString max_dist)
          = some ((List.range n).map (fun i =>
              majOf 0 ((dijkstraWithin n W i (max_dist : ℚ)).map
                (fun v => arr.getD v 0)))) := by
  refine ⟨setProp sk (prop_key ++ "_avg" ++ toString max_dist)
    ((List.range n).map (fun i =>
      majOf 0 ((dijkstraWithin n W i (max_dist : ℚ)).map
        (fun v => arr.getD v 0)))), ?_, ?_, ?_, ?_⟩
  · unfold majorityvote_skeleton_property
    rw [h]
  · rw [lookupProp_setProp_ne _ _ _ (derived_key_ne prop_key max_dist), h]
  · intro k hk
    rw [lookupProp_setProp_ne _ _ _ hk]
  · rw [lookupProp_setProp_self]

/-- C7 witness: the frame theorem applied to a one-entry dictionary. -/
theorem C7_witness :
    lookupProp [("p", [1, 2])] "p" = some [1, 2]
    ∧ (∃ out, majorityvote_skeleton_property 0 [] [("p", [1, 2])] "p" 0
          = Except.ok out
        ∧ lookupProp out "p" = some [1, 2]
        ∧ (∀ k, k ≠ "p" ++ "_avg" ++ toString (0 : ℤ) →
            lookupProp out k = lookupProp [("p", [1, 2])] k)
        ∧ lookupProp out ("p" ++ "_avg" ++ toString (0 : ℤ))
            = some ((List.range 0).map (fun i =>
                majOf 0 ((dijkstraWithin 0 [] i ((0 : ℤ) : ℚ)).map
                  (fun v => ([1, 2] : List ℚ).getD v 0))))) := by
  constructor
  · rfl
  · exact C7_read_then_batch_write 0 [] [("p", [1, 2])] "p" 0 [1, 2] rfl

theorem relaxDir_inv (src u v : ℕ) (wt : ℚ) (hwt : 0 < wt)
    (d : ℕ → Option ℚ) (hsrc : d src = some 0)
    (hpos : ∀ w dw, d w = some dw → 0 ≤ dw ∧ (dw ≤ 0 → w = src)) :
    relaxDir d u v wt src = some 0
    ∧ ∀ w dw, relaxDir d u v wt w = some dw → 0 ≤ dw ∧ (dw ≤ 0 → w = src) := by
  unfold relaxDir
  cases hdu : d u with
  | none => exact ⟨hsrc, hpos⟩
  | some du =>
      dsimp only
      have hdu0 : 0 ≤ du := (hpos u du hdu).1
      have hduwt : 0 < du + wt := by linarith
      cases hdv : d v with
      | none =>
          dsimp only
          have hvs : v ≠ src := by
            intro he
            rw [he, hsrc] at hdv
            cases hdv
          constructor
          · rw [Function.update_apply, if_neg (fun he => hvs he.symm)]
            exact hsrc
          · intro w dw hw
            rw [Function.update_apply] at hw
            by_cases hwv : w = v
            · rw [if_pos hwv] at hw
              have hdw : dw = du + wt := by
                injection hw with h2
                exact h2.symm
              constructor
              · rw [hdw]; linarith
              · intro hle
                rw [hdw] at hle
                linarith
            · rw [if_neg hwv] at hw
              exact hpos w dw hw
      | some dv =>
          dsimp only
          by_cases hlt : du + wt < dv
          · rw [if_pos hlt]
            have hvs : v ≠ src := by
              intro he
              rw [he, hsrc] at hdv
              injection hdv with h2
              rw [← h2] at hlt
              linarith
            constructor
            · rw [Function.update_apply, if_neg (fun he => hvs he.symm)]
              exact hsrc
            · intro w dw hw
              rw [Function.update_apply] at hw
              by_cases hwv : w = v
              · rw [if_pos hwv] at hw
                have hdw : dw = du + wt := by
                  injection hw with h2
                  exact h2.symm
                constructor
                · rw [hdw]; linarith
                · intro hle
                  rw [hdw] at hle
                  linarith
              · rw [if_neg hwv] at hw
                exact hpos w dw hw
          · rw [if_neg hlt]
            exact ⟨hsrc, hpos⟩

theorem relaxEdge_inv (src : ℕ) (e : (ℕ × ℕ) × ℚ) (hwt : 0 < e.2)
    (d : ℕ → Option ℚ) (hsrc : d src = some 0)
    (hpos : ∀ w dw, d w = some dw → 0 ≤ dw ∧ (dw ≤ 0 → w = src)) :
    relaxEdge d e src = some 0
    ∧ ∀ w dw, relaxEdge d e w = some dw → 0 ≤ dw ∧ (dw ≤ 0 → w = src) := by
  unfold relaxEdge
  have h1 := relaxDir_inv src e.1.1 e.1.2 e.2 hwt d hsrc hpos
  exact relaxDir_inv src e.1.2 e.1.1 e.2 hwt _ h1.1 h1.2

theorem foldl_relax_inv (src : ℕ) :
    ∀ (W : List ((ℕ × ℕ) × ℚ)) (d : ℕ → Option ℚ),
      (∀ e ∈ W, 0 < e.2) →
      d src = some 0 →
      (∀ w dw, d w = some dw → 0 ≤ dw ∧ (dw ≤ 0 → w = src)) →
      (W.foldl relaxEdge d) src = some 0
      ∧ ∀ w dw, (W.foldl relaxEdge d) w = some dw
          → 0 ≤ dw ∧ (dw ≤ 0 → w = src) := by
  intro W
  induction W with
  | nil => exact fun d _ hsrc hpos => ⟨hsrc, hpos⟩
  | cons e rest ih =>
      intro d hW hsrc hpos
      rw [List.foldl_cons]
      have h1 := relaxEdge_inv src e (hW e (List.mem_cons_self e rest))
        d hsrc hpos
      exact ih _ (fun e2 he2 => hW e2 (List.mem_cons_of_mem e he2)) h1.1 h1.2

theorem bfDist_inv (W : List ((ℕ × ℕ) × ℚ)) (hW : ∀ e ∈ W, 0 < e.2)
    (src : ℕ) :
    ∀ rounds : ℕ,
      bfDist W rounds src src = some 0
      ∧ ∀ w dw, bfDist W rounds src w = some dw
          → 0 ≤ dw ∧ (dw ≤ 0 → w = src) := by
  intro rounds
  induction rounds with
  | zero =>
      constructor
      · show (if src = src then some (0 : ℚ) else none) = some 0
        rw [if_pos rfl]
      · intro w dw hw
        have hw2 : (if w = src then some (0 : ℚ) else none) = some dw := hw
        by_cases hws : w = src
        · rw [if_pos hws] at hw2
          injection hw2 with h2
          exact ⟨le_of_eq h2, fun _ => hws⟩
        · rw [if_neg hws] at hw2
          cases hw2
  | succ r ih =>
      have hstep : bfDist W (r + 1) src = relaxRound W (bfDist W r src) := rfl
      rw [hstep]
      unfold relaxRound
      exact foldl_relax_inv src W _ hW ih.1 ih.2

theorem filter_range_single (p : ℕ → Bool) :
    ∀ n i, i < n → p i = true → (∀ j, j ≠ i → p j = false) →
      (List.range n).filter p = [i] := by
  intro n
  induction n with
  | zero => intro i hi; exact absurd hi (Nat.not_lt_zero i)
  | succ m ih =>
      intro i hi hp hq
      rw [List.range_succ, List.filter_append]
      by_cases him : i = m
      · have hnil : (List.range m).filter p = [] := by
          rw [List.filter_eq_nil_iff]
          intro a ha
          have ham : a < m := List.mem_range.1 ha
          have : a ≠ i := by omega
          simp [hq a this]
        rw [hnil, List.filter_cons, List.filter_nil]
        rw [him] at hp
        rw [hp]
        simp [him]
      · have hilt : i < m := by omega
        rw [ih i hilt hp hq, List.filter_cons, List.filter_nil,
          hq m (fun h2 => him h2.symm)]
        simp

theorem dijkstraWithin_zero (n : ℕ) (W : List ((ℕ × ℕ) × ℚ)) (i : ℕ)
    (hi : i < n) (hW : ∀ e ∈ W, 0 < e.2) :
    dijkstraWithin n W i 0 = [i] := by
  unfold dijkstraWithin
  have hinv := bfDist_inv W hW i n
  refine filter_range_single _ n i hi ?_ ?_
  · rw [hinv.1]
    simp
  · intro j hj
    cases hbf : bfDist W n i j with
    | none => simp [hbf]
    | some dv =>
        have h2 := hinv.2 j dv hbf
        have hdv : ¬ dv ≤ 0 := fun hle => hj (h2.2 hle)
        simp [hbf, hdv]

theorem majOf_single {α : Type} [DecidableEq α] [LinearOrder α]
    (d x : α) : majOf d [x] = x := rfl

theorem map_getD_range (arr : List ℚ) :
    (List.range arr.length).map (fun i => arr.getD i 0) = arr := by
  apply List.ext_getElem
  · simp
  · intro j h1 h2
    simp [List.getElem?_eq_getElem h2]

/-- C6: with positive edge weights, the window aggregator at maximum
traversal distance 0 stores, under the derived key, exactly the original
property array: each node's geodesic 0-neighbourhood is the node itself,
and the majority of a single value is that value. -/
theorem C6_distance_zero_identity (n : ℕ) (W : List ((ℕ × ℕ) × ℚ))
    (sk : List (String × List ℚ)) (prop_key : String) (arr : List ℚ)
    (h : lookupProp sk prop_key = some arr) (harr : arr.length = n)
    (hW : ∀ e ∈ W, 0 < e.2) :
    majorityvote_skeleton_property n W sk prop_key 0
      = Except.ok (setProp sk (prop_key ++ "_avg" ++ toString (0 : ℤ)) arr) := by
  have havg : (List.range n).map (fun i =>
      majOf 0 ((dijkstraWithin n W i (((0 : ℤ) : ℚ))).map
        (fun v => arr.getD v 0))) = arr := by
    have hstep : ∀ i ∈ List.range n,
        majOf 0 ((dijkstraWithin n W i (((0 : ℤ) : ℚ))).map
          (fun v => arr.getD v 0)) = arr.getD i 0 := by
      intro i hi
      have hi2 : i < n := List.mem_range.1 hi
      have hz : (((0 : ℤ) : ℚ)) = 0 := Int.cast_zero
      rw [hz, dijkstraWithin_zero n W i hi2 hW]
      rw [List.map_singleton, majOf_single]
    rw [List.map_congr_left hstep]
    rw [← harr]
    exact map_getD_range arr
  unfold majorityvote_skeleton_property
  rw [h]
  simp only []
  rw [havg]

/-- C6 witness: a two-node skeleton with one positive-weight edge and
property values [3, 5]; the distance-0 aggregation returns them
unchanged. -/
theorem C6_witness :
    lookupProp [("p", [3, 5])] "p" = some [3, 5]
    ∧ ([3, 5] : List ℚ).length = 2
    ∧ (∀ e ∈ ([(((0 : ℕ), (1 : ℕ)), (1 : ℚ))] : List ((ℕ × ℕ) × ℚ)),
        0 < e.2)
    ∧ majorityvote_skeleton_property 2 [(((0 : ℕ), (1 : ℕ)), (1 : ℚ))]
        [("p", [3, 5])] "p" 0
      = Except.ok (setProp [("p", [3, 5])]
          ("p" ++ "_avg" ++ toString (0 : ℤ)) [3, 5]) := by
  refine ⟨rfl, rfl, ?_, ?_⟩
  · intro e he
    rw [List.mem_singleton] at he
    rw [he]
    norm_num
  · refine C6_distance_zero_identity 2 _ _ "p" [3, 5] rfl rfl ?_
    intro e he
    rw [List.mem_singleton] at he
    rw [he]
    norm_num

theorem mvStep_foldl_error (A : Anno) (norm3 : V3 → ℚ) (pia : Bool)
    (maxd : ℚ) (msg : String) :
    ∀ l : List ℕ,
      l.foldl (mvStep A norm3 pia maxd) (Except.error msg)
        = Except.error msg := by
  intro l
  induction l with
  | nil => rfl
  | cons v rest ih =>
      rw [List.foldl_cons]
      exact ih

theorem mvStep_foldl_keep2 (A : Anno) (norm3 : V3 → ℚ) (maxd : ℚ)
    (src : ℕ) (hsrc2 : A.data src = 2) :
    ∀ (l : List ℕ) (f : ℕ → ℤ), f src = 2 →
      ∀ g, l.foldl (mvStep A norm3 true maxd) (Except.ok f) = Except.ok g →
        g src = 2 := by
  intro l
  induction l with
  | nil =>
      intro f hf g hg
      injection hg with h2
      rw [← h2]
      exact hf
  | cons v rest ih =>
      intro f hf g hg
      rw [List.foldl_cons] at hg
      by_cases hv : A.data v = 2
      · have hstep : mvStep A norm3 true maxd (Except.ok f) v
            = Except.ok (Function.update f v 2) := by
          unfold mvStep
          dsimp only
          rw [if_pos ⟨rfl, hv⟩]
        rw [hstep] at hg
        refine ih (Function.update f v 2) ?_ g hg
        rw [Function.update_apply]
        by_cases hsv : src = v
        · rw [if_pos hsv]
        · rw [if_neg hsv]
          exact hf
      · have hvs : v ≠ src := fun he => hv (he ▸ hsrc2)
        cases hc : counterMostCommon (voteListOf A norm3 maxd v) with
        | none =>
            have hstep : mvStep A norm3 true maxd (Except.ok f) v
                = Except.error ("IndexError") := by
              unfold mvStep
              dsimp only
              rw [if_neg (fun h => hv h.2)]
              rw [hc]
            rw [hstep, mvStep_foldl_error] at hg
            cases hg
        | some m =>
            have hstep : mvStep A norm3 true maxd (Except.ok f) v
                = Except.ok (Function.update f v m) := by
              unfold mvStep
              dsimp only
              rw [if_neg (fun h => hv h.2)]
              rw [hc]
            rw [hstep] at hg
            refine ih (Function.update f v m) ?_ g hg
            rw [Function.update_apply, if_neg (fun he => hvs he.symm)]
            exact hf

/-- C10: in the window vote, (a) the value 2 never enters any window's
vote list; (b) for a property other than axoness, a window consisting
entirely of value-2 nodes makes the whole call raise instead of assigning
a value; (c) for axoness, a source node carrying 2 still carries 2 in any
successful result. -/
theorem C10_window_vote_soma (A : Anno) (norm3 : V3 → ℚ) (maxd : ℚ) :
    (∀ src, 2 ∉ voteListOf A norm3 maxd src)
    ∧ (∀ src, src ∈ A.nodes →
        (∀ v ∈ nodes_in_pathlength A norm3 maxd src, A.data v = 2) →
        ∃ msg, majority_vote A norm3 false maxd = Except.error msg)
    ∧ (∀ src (f : ℕ → ℤ), A.data src = 2 →
        majority_vote A norm3 true maxd = Except.ok f → f src = 2) := by
  refine ⟨?_, ?_, ?_⟩
  · intro src hmem
    unfold voteListOf at hmem
    have := List.of_mem_filter hmem
    simp at this
  · intro src hsrc hall
    have hvl : voteListOf A norm3 maxd src = [] := by
      unfold voteListOf
      rw [List.filter_eq_nil_iff]
      intro a ha
      rw [List.mem_map] at ha
      obtain ⟨v, hv, hva⟩ := ha
      rw [← hva]
      simp [hall v hv]
    obtain ⟨l1, l2, hsplit⟩ := List.append_of_mem hsrc
    unfold majority_vote
    rw [hsplit, List.foldl_append, List.foldl_cons]
    cases hacc : l1.foldl (mvStep A norm3 false maxd) (Except.ok A.data) with
    | error msg =>
        refine ⟨msg, ?_⟩
        have hstep : mvStep A norm3 false maxd (Except.error msg) src
            = Except.error msg := rfl
        rw [hstep, mvStep_foldl_error]
    | ok f =>
        refine ⟨"IndexError", ?_⟩
        have hstep : mvStep A norm3 false maxd (Except.ok f) src
            = Except.error ("IndexError") := by
          unfold mvStep
          dsimp only
          rw [if_neg (fun h => Bool.false_ne_true h.1)]
          rw [hvl]
          rfl
        rw [hstep, mvStep_foldl_error]
  · intro src f hsrc2 hok
    unfold majority_vote at hok
    exact mvStep_foldl_keep2 A norm3 maxd src hsrc2 A.nodes A.data hsrc2 f hok

set_option maxRecDepth 4000 in
/-- C10 witness: on a two-node annotation whose property values are all
2, part (a) at node 0, part (b) (non-axoness: the call errors), and part
(c) (axoness: the successful result keeps 2 at node 0). -/
theorem C10_witness :
    2 ∉ voteListOf wA10 wnorm10 1 0
    ∧ ((0 : ℕ) ∈ wA10.nodes
        ∧ (∀ v ∈ nodes_in_pathlength wA10 wnorm10 1 0, wA10.data v = 2)
        ∧ ∃ msg, majority_vote wA10 wnorm10 false 1 = Except.error msg)
    ∧ (wA10.data 0 = 2
        ∧ majority_vote wA10 wnorm10 true 1
            = Except.ok (Function.update (Function.update wA10.data 0 2) 1 2)
        ∧ Function.update (Function.update wA10.data 0 2) 1 2 0 = 2) := by
  have hall : ∀ v ∈ nodes_in_pathlength wA10 wnorm10 1 0, wA10.data v = 2 :=
    fun v _ => rfl
  have hok : majority_vote wA10 wnorm10 true 1
      = Except.ok (Function.update (Function.update wA10.data 0 2) 1 2) := by
    rfl
  refine ⟨(C10_window_vote_soma wA10 wnorm10 1).1 0,
    ⟨by decide, hall,
      (C10_window_vote_soma wA10 wnorm10 1).2.1 0 (by decide) hall⟩,
    rfl, hok,
    (C10_window_vote_soma wA10 wnorm10 1).2.2 0
      (Function.update (Function.update wA10.data 0 2) 1 2) rfl hok⟩

theorem walkStub_coll_prefix (E : List (ℕ × ℕ)) :
    ∀ (fuel : ℕ) (prev curr : ℕ) (coll stub : List ℕ) (br : ℕ),
      walkStub E fuel prev curr coll = some (stub, br) →
      ∃ rest, stub = coll ++ rest := by
  intro fuel
  induction fuel with
  | zero =>
      intro prev curr coll stub br h
      unfold walkStub at h
      exact Option.noConfusion h
  | succ f ih =>
      intro prev curr coll stub br h
      unfold walkStub at h
      by_cases hdeg : degree E curr > 2
      · rw [if_pos hdeg] at h
        injection h with h2
        refine ⟨[], ?_⟩
        rw [List.append_nil]
        exact (congrArg Prod.fst h2).symm
      · rw [if_neg hdeg] at h
        cases hl : (nbrs E curr).filter (fun w => decide (w ≠ prev)) with
        | nil =>
            rw [hl] at h
            dsimp only at h
            exact Option.noConfusion h
        | cons x xs =>
            cases xs with
            | nil =>
                rw [hl] at h
                dsimp only at h
                by_cases hg : x ∈ coll ++ [curr]
                · rw [if_pos hg] at h
                  exact Option.noConfusion h
                · rw [if_neg hg] at h
                  obtain ⟨rest, hrest⟩ := ih curr x (coll ++ [curr]) stub br h
                  refine ⟨curr :: rest, ?_⟩
                  rw [hrest, List.append_assoc]
                  rfl
            | cons y ys =>
                rw [hl] at h
                dsimp only at h
                exact Option.noConfusion h

theorem walkStub_from_tip_head (E : List (ℕ × ℕ)) (v : ℕ) (n : ℕ)
    (hdeg : degree E v ≤ 2) (stub : List ℕ) (br : ℕ)
    (h : walkStub E (n + 1) v v [] = some (stub, br)) :
    ∃ rest, stub = v :: rest := by
  unfold walkStub at h
  rw [if_neg (by omega : ¬ degree E v > 2)] at h
  cases hl : (nbrs E v).filter (fun w => decide (w ≠ v)) with
  | nil =>
      rw [hl] at h
      dsimp only at h
      exact Option.noConfusion h
  | cons x xs =>
      cases xs with
      | nil =>
          rw [hl] at h
          dsimp only at h
          by_cases hg : x ∈ ([] : List ℕ) ++ [v]
          · rw [if_pos hg] at h
            exact Option.noConfusion h
          · rw [if_neg hg] at h
            obtain ⟨rest, hrest⟩ := walkStub_coll_prefix E n v x ([] ++ [v])
              stub br h
            refine ⟨rest, ?_⟩
            simpa using hrest
      | cons y ys =>
          rw [hl] at h
          dsimp only at h
          exact Option.noConfusion h

theorem flatMap_eq_nil_of_all {α β : Type} (l : List α) (f : α → List β)
    (h : ∀ x ∈ l, f x = []) : l.flatMap f = [] := by
  induction l with
  | nil => rfl
  | cons x xs ih =>
      rw [List.flatMap_cons, h x (List.mem_cons_self x xs),
        List.nil_append]
      exact ih (fun y hy => h y (List.mem_cons_of_mem x hy))

theorem prunePass_fix_stubs (scal : V3) (G : SkelGraph) (T : ℤ)
    (hlen : (prunePass scal G T).nodes.length = G.nodes.length) :
    ∀ t ∈ G.nodes, degree G.edges t = 1 → stubOf scal G T t = [] := by
  intro t ht hdeg
  have hsub : List.Sublist ((prunePass scal G T).nodes) G.nodes :=
    List.filter_sublist G.nodes
  have heq : (prunePass scal G T).nodes = G.nodes := hsub.eq_of_length hlen
  have hall : ∀ v ∈ G.nodes,
      v ∉ (G.nodes.filter (fun w => degree G.edges w == 1)).flatMap
        (stubOf scal G T) := by
    intro v hv
    have h2 : G.nodes.filter (fun w => decide (w ∉
        (G.nodes.filter (fun w2 => degree G.edges w2 == 1)).flatMap
          (stubOf scal G T))) = G.nodes := heq
    have h3 := (List.filter_eq_self.mp h2) v hv
    exact of_decide_eq_true h3
  cases hw : walkStub G.edges (G.nodes.length + 1) t t [] with
  | none =>
      unfold stubOf
      rw [hw]
  | some pr =>
      obtain ⟨stub, br⟩ := pr
      by_cases hgate : sqnorm3 (sub3 (convert_coord (G.pos t) scal)
          (convert_coord (G.pos br) scal)) < T * T
      · exfalso
        obtain ⟨rest, hrest⟩ := walkStub_from_tip_head G.edges t _
          (by omega) stub br hw
        refine hall t ht ?_
        rw [List.mem_flatMap]
        refine ⟨t, ?_, ?_⟩
        · rw [List.mem_filter]
          exact ⟨ht, by simp [hdeg]⟩
        · unfold stubOf
          rw [hw]
          dsimp only
          rw [if_pos hgate, hrest]
          exact List.mem_cons_self _ _
      · unfold stubOf
        rw [hw]
        dsimp only
        rw [if_neg hgate]

theorem prunePass_eq_of_len (scal : V3) (G : SkelGraph) (T : ℤ)
    (hlen : (prunePass scal G T).nodes.length = G.nodes.length) :
    prunePass scal G T = G := by
  have hstubs := prunePass_fix_stubs scal G T hlen
  have hrem : (G.nodes.filter (fun w => degree G.edges w == 1)).flatMap
      (stubOf scal G T) = [] := by
    apply flatMap_eq_nil_of_all
    intro t ht2
    rw [List.mem_filter] at ht2
    exact hstubs t ht2.1 (by exact eq_of_beq ht2.2)
  unfold prunePass
  dsimp only
  rw [hrem]
  simp

theorem pruneLoop_fixpoint (scal : V3) (T : ℤ) :
    ∀ (fuel : ℕ) (G : SkelGraph), G.nodes.length < fuel →
      prunePass scal (pruneLoop scal T fuel G) T = pruneLoop scal T fuel G := by
  intro fuel
  induction fuel with
  | zero => intro G h; exact absurd h (Nat.not_lt_zero _)
  | succ f ih =>
      intro G h
      unfold pruneLoop
      dsimp only
      by_cases heq : (prunePass scal G T).nodes.length = G.nodes.length
      · rw [if_pos heq]
        have h4 := prunePass_eq_of_len scal G T heq
        rw [h4]
        exact h4
      · rw [if_neg heq]
        refine ih (prunePass scal G T) ?_
        have hle : (prunePass scal G T).nodes.length ≤ G.nodes.length :=
          List.length_filter_le _ G.nodes
        omega

theorem nbrs_length (E : List (ℕ × ℕ)) (v : ℕ) :
    (nbrs E v).length = degree E v := by
  induction E with
  | nil => rfl
  | cons e es ih =>
      show (if e.1 = v then e.2 :: nbrs es v
        else if e.2 = v then e.1 :: nbrs es v else nbrs es v).length
        = degree (e :: es) v
      unfold degree
      rw [List.countP_cons]
      by_cases h1 : e.1 = v
      · rw [if_pos h1, List.length_cons, ih]
        have hc : (e.1 == v || e.2 == v) = true := by simp [h1]
        rw [hc]
        rfl
      · rw [if_neg h1]
        by_cases h2 : e.2 = v
        · rw [if_pos h2, List.length_cons, ih]
          have hc : (e.1 == v || e.2 == v) = true := by simp [h2]
          rw [hc]
          rfl
        · rw [if_neg h2, ih]
          have hc : (e.1 == v || e.2 == v) = false := by simp [h1, h2]
          rw [hc]
          rfl

theorem mem_nbrs_of_adjB (E : List (ℕ × ℕ)) (a b : ℕ) (hne : b ≠ a)
    (h : adjB E a b = true) : b ∈ nbrs E a := by
  unfold adjB at h
  rw [List.any_eq_true] at h
  obtain ⟨e, he, hcond⟩ := h
  have hor : (e.1 = a ∧ e.2 = b) ∨ (e.1 = b ∧ e.2 = a) := by
    simpa using hcond
  induction E with
  | nil => exact absurd he (List.not_mem_nil e)
  | cons e2 es ih =>
      show b ∈ (if e2.1 = a then e2.2 :: nbrs es a
        else if e2.2 = a then e2.1 :: nbrs es a else nbrs es a)
      rcases List.mem_cons.1 he with he2 | he2
      · subst he2
        rcases hor with ⟨ha1, ha2⟩ | ⟨ha1, ha2⟩
        · rw [if_pos ha1, ha2]
          exact List.mem_cons_self _ _
        · rw [if_neg (by rw [ha1]; exact hne), if_pos ha2, ha1]
          exact List.mem_cons_self _ _
      · have hb : b ∈ nbrs es a := ih he2
        by_cases h1 : e2.1 = a
        · rw [if_pos h1]
          exact List.mem_cons_of_mem _ hb
        · rw [if_neg h1]
          by_cases h2 : e2.2 = a
          · rw [if_pos h2]
            exact List.mem_cons_of_mem _ hb
          · rw [if_neg h2]
            exact hb

theorem adjB_symm (E : List (ℕ × ℕ)) (u v : ℕ) :
    adjB E u v = adjB E v u := by
  unfold adjB
  induction E with
  | nil => rfl
  | cons e es ih =>
      rw [List.any_cons, List.any_cons, ih]
      congr 1
      exact Bool.or_comm _ _

theorem eq_singleton_of_len1 {l : List ℕ} {b : ℕ} (h : l.length = 1)
    (hb : b ∈ l) : l = [b] := by
  match l, h with
  | [x], _ =>
      rw [List.mem_singleton] at hb
      rw [hb]

theorem filter_pair_eq {l : List ℕ} {a b : ℕ} (hlen : l.length = 2)
    (ha : a ∈ l) (hb : b ∈ l) (hab : a ≠ b) :
    l.filter (fun w => decide (w ≠ a)) = [b] := by
  match l, hlen with
  | [x, y], _ =>
      rcases (by simpa using ha : a = x ∨ a = y) with h1 | h1
      · rcases (by simpa using hb : b = x ∨ b = y) with h2 | h2
        · exact absurd (h1.trans h2.symm) hab
        · rw [← h1, ← h2]
          simp [Ne.symm hab]
      · rcases (by simpa using hb : b = x ∨ b = y) with h2 | h2
        · rw [← h1, ← h2]
          simp [Ne.symm hab]
        · exact absurd (h1.trans h2.symm) hab

theorem walk_complete_aux (E : List (ℕ × ℕ)) (br : ℕ)
    (hbr : 2 < degree E br) :
    ∀ (q : List ℕ) (fuel : ℕ) (prev curr : ℕ) (coll : List ℕ),
      q.length + 2 ≤ fuel →
      prev ∈ coll →
      List.Chain' (fun a b => adjB E a b = true) (prev :: curr :: (q ++ [br])) →
      degree E curr = 2 →
      (∀ x ∈ q, degree E x = 2) →
      (coll ++ curr :: (q ++ [br])).Nodup →
      walkStub E fuel prev curr coll = some (coll ++ curr :: q, br) := by
  intro q
  induction q with
  | nil =>
      intro fuel prev curr coll hfuel hprev hchain hdc hdq hnd
      rw [List.nodup_append] at hnd
      obtain ⟨hndc, hndr, hdisj⟩ := hnd
      have hcb2 : curr ≠ br := by
        rw [List.nodup_cons] at hndr
        intro h2
        exact hndr.1 (by rw [h2]; simp)
      have hprevcurr : prev ≠ curr := by
        intro h2
        exact hdisj hprev (by rw [← h2]; exact List.mem_cons_self _ _)
      have hprevbr : prev ≠ br := by
        intro h2
        exact hdisj hprev (by rw [← h2]; simp)
      have hbrcoll : br ∉ coll := by
        intro h2
        exact hdisj h2 (by simp)
      have hpc : adjB E prev curr = true := (List.chain'_cons.mp hchain).1
      have hcb : adjB E curr br = true :=
        (List.chain'_cons.mp (List.chain'_cons.mp hchain).2).1
      have hpc2 : adjB E curr prev = true := by
        rw [adjB_symm]
        exact hpc
      have hlen2 : (nbrs E curr).length = 2 := by
        rw [nbrs_length]
        exact hdc
      have hfilter := filter_pair_eq hlen2
        (mem_nbrs_of_adjB E curr prev hprevcurr hpc2)
        (mem_nbrs_of_adjB E curr br (fun h2 => hcb2 h2.symm) hcb)
        hprevbr
      obtain ⟨f, rfl⟩ : ∃ f, fuel = f + 2 := ⟨fuel - 2, by omega⟩
      unfold walkStub
      rw [if_neg (by omega : ¬ degree E curr > 2)]
      rw [hfilter]
      dsimp only
      rw [if_neg (by
        intro h2
        rcases List.mem_append.1 h2 with h3 | h3
        · exact hbrcoll h3
        · have h4 : br = curr := by simpa using h3
          exact hcb2 h4.symm)]
      unfold walkStub
      rw [if_pos hbr]
  | cons n q' ih =>
      intro fuel prev curr coll hfuel hprev hchain hdc hdq hnd
      simp only [List.cons_append] at hchain hnd
      rw [List.nodup_append] at hnd
      obtain ⟨hndc, hndr, hdisj⟩ := hnd
      rw [List.nodup_cons] at hndr
      have hncurr : n ≠ curr := by
        intro h2
        exact hndr.1 (by rw [← h2]; exact List.mem_cons_self _ _)
      have hprevcurr : prev ≠ curr := by
        intro h2
        exact hdisj hprev (by rw [← h2]; exact List.mem_cons_self _ _)
      have hprevn : prev ≠ n := by
        intro h2
        exact hdisj hprev
          (by rw [← h2]; exact List.mem_cons_of_mem _ (List.mem_cons_self _ _))
      have hncoll : n ∉ coll := by
        intro h2
        exact hdisj h2 (List.mem_cons_of_mem _ (List.mem_cons_self _ _))
      have hpc : adjB E prev curr = true := (List.chain'_cons.mp hchain).1
      have hrest := (List.chain'_cons.mp hchain).2
      have hcn : adjB E curr n = true := (List.chain'_cons.mp hrest).1
      have hpc2 : adjB E curr prev = true := by
        rw [adjB_symm]
        exact hpc
      have hlen2 : (nbrs E curr).length = 2 := by
        rw [nbrs_length]
        exact hdc
      have hfilter := filter_pair_eq hlen2
        (mem_nbrs_of_adjB E curr prev hprevcurr hpc2)
        (mem_nbrs_of_adjB E curr n hncurr hcn)
        hprevn
      obtain ⟨f, rfl⟩ : ∃ f, fuel = f + 1 := ⟨fuel - 1, by omega⟩
      unfold walkStub
      rw [if_neg (by omega : ¬ degree E curr > 2)]
      rw [hfilter]
      dsimp only
      rw [if_neg (by
        intro h2
        rcases List.mem_append.1 h2 with h3 | h3
        · exact hncoll h3
        · exact hncurr (by simpa using h3))]
      have hfl : q'.length + 2 ≤ f := by
        simp only [List.length_cons] at hfuel
        omega
      have hih := ih f curr n (coll ++ [curr]) hfl
        (by simp)
        hrest
        (hdq n (List.mem_cons_self _ _))
        (fun x hx => hdq x (List.mem_cons_of_mem _ hx))
        (by
          rw [List.append_assoc, List.nodup_append]
          refine ⟨hndc, ?_, ?_⟩
          · show (curr :: n :: (q' ++ [br])).Nodup
            exact List.nodup_cons.mpr ⟨hndr.1, hndr.2⟩
          · intro a ha hb
            rcases List.mem_append.1 hb with h3 | h3
            · rw [List.mem_singleton] at h3
              exact hdisj ha (by rw [h3]; exact List.mem_cons_self _ _)
            · exact hdisj ha (List.mem_cons_of_mem _ h3))
      rw [hih, List.append_assoc]
      rfl

theorem walk_complete (G : SkelGraph) (p : List ℕ) (br : ℕ)
    (hsp : IsStubPath G p br) (fuel : ℕ) (hfuel : p.length + 1 ≤ fuel) :
    walkStub G.edges fuel (p.headD 0) (p.headD 0) [] = some (p, br) := by
  obtain ⟨hne, hmem, hbrm, hchain, hdeg1, hdeg2, hdegbr, hnd, hbrp⟩ := hsp
  match p, hne, hmem, hchain, hdeg1, hdeg2, hnd, hbrp, hfuel with
  | v :: rest, _, hmem, hchain, hdeg1, hdeg2, hnd, hbrp, hfuel =>
    have hdv : degree G.edges v = 1 := hdeg1
    have hbrv : br ≠ v := fun h2 => hbrp (by rw [h2]; exact List.mem_cons_self _ _)
    simp only [List.cons_append] at hchain
    obtain ⟨f, rfl⟩ : ∃ f, fuel = f + 1 :=
      ⟨fuel - 1, by simp only [List.length_cons] at hfuel; omega⟩
    show walkStub G.edges (f + 1) v v [] = some (v :: rest, br)
    unfold walkStub
    rw [if_neg (by omega : ¬ degree G.edges v > 2)]
    cases rest with
    | nil =>
        have hvb : adjB G.edges v br = true := (List.chain'_cons.mp hchain).1
        have hnb : nbrs G.edges v = [br] :=
          eq_singleton_of_len1 (by rw [nbrs_length]; exact hdv)
            (mem_nbrs_of_adjB G.edges v br hbrv hvb)
        rw [hnb]
        have hfl : List.filter (fun w => decide (w ≠ v)) [br] = [br] := by
          simp [hbrv]
        rw [hfl]
        dsimp only
        rw [if_neg (by
          intro h2
          exact hbrv (by simpa using h2))]
        obtain ⟨f2, rfl⟩ : ∃ f2, f = f2 + 1 :=
          ⟨f - 1, by simp only [List.length_cons] at hfuel; omega⟩
        unfold walkStub
        rw [if_pos hdegbr]
        rfl
    | cons n rest' =>
        rw [List.nodup_cons] at hnd
        have hnv : n ≠ v := by
          intro h2
          exact hnd.1 (by rw [← h2]; exact List.mem_cons_self _ _)
        have hvn : adjB G.edges v n = true := (List.chain'_cons.mp hchain).1
        have hnb : nbrs G.edges v = [n] :=
          eq_singleton_of_len1 (by rw [nbrs_length]; exact hdv)
            (mem_nbrs_of_adjB G.edges v n hnv hvn)
        rw [hnb]
        have hfl : List.filter (fun w => decide (w ≠ v)) [n] = [n] := by
          simp [hnv]
        rw [hfl]
        dsimp only
        rw [if_neg (by
          intro h2
          exact hnv (by simpa using h2))]
        have hres := walk_complete_aux G.edges br hdegbr rest' f v n ([] ++ [v])
          (by simp only [List.length_cons] at hfuel; omega)
          (by simp)
          (by simpa using hchain)
          (hdeg2 n (List.mem_cons_self _ _))
          (fun x hx => hdeg2 x (List.mem_cons_of_mem _ hx))
          (by
            show ([v] ++ n :: (rest' ++ [br])).Nodup
            rw [List.nodup_append]
            refine ⟨List.nodup_singleton v, ?_, ?_⟩
            · rw [List.nodup_cons]
              constructor
              · intro h2
                rcases List.mem_append.1 h2 with h3 | h3
                · exact (List.nodup_cons.mp hnd.2).1 h3
                · exact hbrp (by
                    rw [List.mem_singleton] at h3
                    rw [h3]
                    exact List.mem_cons_of_mem _ (List.mem_cons_self _ _))
              · rw [List.nodup_append]
                refine ⟨(List.nodup_cons.mp hnd.2).2, List.nodup_singleton br, ?_⟩
                intro a ha hb
                rw [List.mem_singleton] at hb
                rw [hb] at ha
                exact hbrp (List.mem_cons_of_mem _ (List.mem_cons_of_mem _ ha))
            · intro a ha hb
              rw [List.mem_singleton] at ha
              rcases List.mem_cons.1 hb with h3 | h3
              · rw [ha] at h3
                exact hnv h3.symm
              · rcases List.mem_append.1 h3 with h4 | h4
                · rw [ha] at h4
                  exact hnd.1 (List.mem_cons_of_mem _ h4)
                · rw [List.mem_singleton] at h4
                  exact hbrv (ha.symm.trans h4).symm)
        rw [hres]
        rfl

theorem length_le_of_nodup_subset {l l' : List ℕ} (h : l.Nodup)
    (hs : ∀ x ∈ l, x ∈ l') : l.length ≤ l'.length := by
  have h1 : l.toFinset.card = l.length := List.toFinset_card_of_nodup h
  have h2 : l.toFinset ⊆ l'.toFinset := by
    intro a ha
    rw [List.mem_toFinset] at ha ⊢
    exact hs a ha
  have h3 := Finset.card_le_card h2
  have h4 := l'.toFinset_card_le
  omega

theorem no_short_stub_at_fix (scal : V3) (G : SkelGraph) (T : ℤ)
    (hfix : prunePass scal G T = G) :
    ∀ p br, IsStubPath G p br → ¬ (stubGateSq scal G p br < T * T) := by
  intro p br hsp hgate
  have hlen : (prunePass scal G T).nodes.length = G.nodes.length := by
    rw [hfix]
  have hheadp : p.headD 0 ∈ p := by
    match p, hsp.1 with
    | v :: rest, _ => exact List.mem_cons_self _ _
  have hstub := prunePass_fix_stubs scal G T hlen (p.headD 0)
    (hsp.2.1 _ hheadp) hsp.2.2.2.2.1
  have hbound : p.length + 1 ≤ G.nodes.length + 1 := by
    have := length_le_of_nodup_subset hsp.2.2.2.2.2.2.2.1 hsp.2.1
    omega
  have hwalk := walk_complete G p br hsp (G.nodes.length + 1) hbound
  unfold stubOf at hstub
  rw [hwalk] at hstub
  dsimp only at hstub
  unfold stubGateSq at hgate
  rw [if_pos hgate] at hstub
  exact hsp.1 hstub

theorem prunePass_removed (scal : V3) (G : SkelGraph) (T : ℤ) (v : ℕ)
    (hv : v ∈ G.nodes) (hout : v ∉ (prunePass scal G T).nodes) :
    ∃ t stub br, t ∈ G.nodes ∧ degree G.edges t = 1
      ∧ walkStub G.edges (G.nodes.length + 1) t t [] = some (stub, br)
      ∧ sqnorm3 (sub3 (convert_coord (G.pos t) scal)
          (convert_coord (G.pos br) scal)) < T * T
      ∧ v ∈ stub := by
  have hrem : v ∈ (G.nodes.filter
      (fun w => degree G.edges w == 1)).flatMap (stubOf scal G T) := by
    by_contra hnot
    refine hout ?_
    show v ∈ G.nodes.filter (fun w => decide (w ∉
      (G.nodes.filter (fun w2 => degree G.edges w2 == 1)).flatMap
        (stubOf scal G T)))
    rw [List.mem_filter]
    exact ⟨hv, decide_eq_true hnot⟩
  rw [List.mem_flatMap] at hrem
  obtain ⟨t, ht, hvs⟩ := hrem
  rw [List.mem_filter] at ht
  cases hw : walkStub G.edges (G.nodes.length + 1) t t [] with
  | none =>
      exfalso
      unfold stubOf at hvs
      rw [hw] at hvs
      exact List.not_mem_nil v hvs
  | some pr =>
      obtain ⟨stub, br⟩ := pr
      unfold stubOf at hvs
      rw [hw] at hvs
      dsimp only at hvs
      by_cases hg : sqnorm3 (sub3 (convert_coord (G.pos t) scal)
          (convert_coord (G.pos br) scal)) < T * T
      · rw [if_pos hg] at hvs
        exact ⟨t, stub, br, ht.1, eq_of_beq ht.2, hw, hg, hvs⟩
      · rw [if_neg hg] at hvs
        exact absurd hvs (List.not_mem_nil v)

theorem pruneLoop_removed (scal : V3) (T : ℤ) :
    ∀ (fuel : ℕ) (G : SkelGraph) (v : ℕ), v ∈ G.nodes →
      v ∉ (pruneLoop scal T fuel G).nodes →
      ∃ k t stub br,
        t ∈ (passIter scal T k G).nodes
        ∧ degree (passIter scal T k G).edges t = 1
        ∧ walkStub (passIter scal T k G).edges
            ((passIter scal T k G).nodes.length + 1) t t []
            = some (stub, br)
        ∧ sqnorm3 (sub3 (convert_coord ((passIter scal T k G).pos t) scal)
            (convert_coord ((passIter scal T k G).pos br) scal)) < T * T
        ∧ v ∈ stub := by
  intro fuel
  induction fuel with
  | zero =>
      intro G v hv hout
      exact absurd hv hout
  | succ f ih =>
      intro G v hv hout
      unfold pruneLoop at hout
      dsimp only at hout
      by_cases heq : (prunePass scal G T).nodes.length = G.nodes.length
      · rw [if_pos heq] at hout
        obtain ⟨t, stub, br, h1, h2, h3, h4, h5⟩ :=
          prunePass_removed scal G T v hv hout
        exact ⟨0, t, stub, br, h1, h2, h3, h4, h5⟩
      · rw [if_neg heq] at hout
        by_cases hmid : v ∈ (prunePass scal G T).nodes
        · obtain ⟨k, t, stub, br, h⟩ := ih (prunePass scal G T) v hmid hout
          exact ⟨k + 1, t, stub, br, h⟩
        · obtain ⟨t, stub, br, h1, h2, h3, h4, h5⟩ :=
            prunePass_removed scal G T v hv hmid
          exact ⟨0, t, stub, br, h1, h2, h3, h4, h5⟩

/-- C3 (amended): the pruning loop of `prune_stub_branches` decides by the
straight-line tip-to-branch distance in the shifted/swapped `convert_coord`
frame, not by cumulative path length: (i) in the loop's final graph no
leaf-to-branch stub path whose straight-line distance is below the
threshold remains; (ii) every node the loop removes belongs to a stub
collected in some pass whose walk reached a branch point with straight-line
distance below the threshold. -/
theorem C3_amended_straightline_pruning (scal : V3) (G : SkelGraph) (T : ℤ) :
    (∀ p br, IsStubPath (pruneLoop scal T (G.nodes.length + 1) G) p br →
      ¬ (stubGateSq scal (pruneLoop scal T (G.nodes.length + 1) G) p br
          < T * T))
    ∧ (∀ v ∈ G.nodes, v ∉ (pruneLoop scal T (G.nodes.length + 1) G).nodes →
        ∃ k t stub br,
          t ∈ (passIter scal T k G).nodes
          ∧ degree (passIter scal T k G).edges t = 1
          ∧ walkStub (passIter scal T k G).edges
              ((passIter scal T k G).nodes.length + 1) t t []
              = some (stub, br)
          ∧ sqnorm3 (sub3 (convert_coord ((passIter scal T k G).pos t) scal)
              (convert_coord ((passIter scal T k G).pos br) scal)) < T * T
          ∧ v ∈ stub) := by
  constructor
  · exact no_short_stub_at_fix scal _ T
      (pruneLoop_fixpoint scal T (G.nodes.length + 1) G (by omega))
  · exact pruneLoop_removed scal T (G.nodes.length + 1) G

set_option maxRecDepth 16000 in
/-- C3 counterexample: in `cexG3` the bent stub `[0, 1]` hangs off branch
node `2`; its cumulative physical path length is 10, above the threshold
4, yet `prune_stub_branches` removes node 0 because the straight
tip-to-branch distance (squared 10 < 16) is below the threshold — a path
longer than the threshold is removed, refuting the cumulative-length
reading. -/
theorem C3_counterexample :
    IsStubPath cexG3 [0, 1] 2
    ∧ CumLenGT (1, 1, 1) cexG3.pos [0, 1, 2] 4
    ∧ (0 : ℕ) ∉ (prune_stub_branches (1, 1, 1) cexG3 4).nodes := by
  refine ⟨?_, ?_, by decide⟩
  · unfold IsStubPath
    refine ⟨by decide, by decide, by decide, ?_, by decide, by decide,
      by decide, by decide, by decide⟩
    show List.Chain' (fun a b => adjB cexG3.edges a b = true) [0, 1, 2]
    rw [List.chain'_cons, List.chain'_cons]
    exact ⟨by decide, by decide, List.chain'_singleton 2⟩
  unfold CumLenGT
  have hz : ([0, 1, 2] : List ℕ).zip ([0, 1, 2] : List ℕ).tail
      = [(0, 1), (1, 2)] := rfl
  rw [hz]
  have h1 : sq3 (1, 1, 1) (cexG3.pos 0) (cexG3.pos 1) = 25 := by decide
  have h2 : sq3 (1, 1, 1) (cexG3.pos 1) (cexG3.pos 2) = 25 := by decide
  rw [List.map_cons, List.map_cons, List.map_nil]
  rw [h1, h2]
  have h25 : Real.sqrt (((25 : ℤ) : ℝ)) = 5 := by
    rw [show (((25 : ℤ) : ℝ)) = (5 : ℝ) ^ 2 by norm_num]
    exact Real.sqrt_sq (by norm_num)
  rw [h25]
  rw [List.sum_cons, List.sum_cons, List.sum_nil]
  norm_num

set_option maxRecDepth 16000 in
/-- C3 witness: the amended theorem applied to `cexG3` with threshold 4;
node 0 is removed by the loop, and the theorem locates the pass, the tip,
and the short-straight-distance stub containing it. -/
theorem C3_witness :
    (0 : ℕ) ∈ cexG3.nodes
    ∧ (0 : ℕ) ∉ (pruneLoop (1, 1, 1) 4 (cexG3.nodes.length + 1) cexG3).nodes
    ∧ ∃ k t stub br,
        t ∈ (passIter (1, 1, 1) 4 k cexG3).nodes
        ∧ degree (passIter (1, 1, 1) 4 k cexG3).edges t = 1
        ∧ walkStub (passIter (1, 1, 1) 4 k cexG3).edges
            ((passIter (1, 1, 1) 4 k cexG3).nodes.length + 1) t t []
            = some (stub, br)
        ∧ sqnorm3 (sub3
            (convert_coord ((passIter (1, 1, 1) 4 k cexG3).pos t) (1, 1, 1))
            (convert_coord ((passIter (1, 1, 1) 4 k cexG3).pos br) (1, 1, 1)))
            < 4 * 4
        ∧ 0 ∈ stub :=
  ⟨by decide, by decide,
    (C3_amended_straightline_pruning (1, 1, 1) cexG3 4).2 0 (by decide)
      (by decide)⟩
